import Mathlib

/-!
# Dawkins weasel (weasel.c): a shallow embedding

The program evolves a population of strings towards a target string.  The embedding
follows weasel.c function by function.

Modelling conventions.
* A C string is the list of the characters that precede its terminating NUL; reading
  the character at an index beyond the list yields NUL.
* Every counted C loop is an instance of forLoop, which runs its body for
  i = lo, lo + 1, ..., hi - 1 in this order.
* The float computations of binprob and cumprob are carried out in exact rational
  arithmetic.
* The pseudorandom generator is a stream draws : Nat → Nat of the successive results of
  rand(), together with the position k of the next result; RAND_MAX is a parameter.
* An automatic variable that is read before any assignment has no value: the function
  returns none.
* The counters of type int are natural numbers (no run of the model reaches 2^31).
-/

namespace Weasel

/-- C string: the characters before the terminating NUL. -/
abbrev Str := List Char

/-- The terminating character of a C string. -/
def NUL : Char := Char.ofNat 0

/-- The character read by the C expression str[i]. -/
def charAt (str : Str) (i : Nat) : Char := str.getD i NUL

/-- The loop for (int i = lo; i < hi; i++) body, threading the state of the loop. -/
def forLoop {σ : Type} (lo : Nat) (body : Nat → σ → σ) : Nat → σ → σ
  | 0, s => s
  | hi + 1, s => if lo ≤ hi then body hi (forLoop lo body hi s) else s

/-- Memory returned by malloc: n bytes of indeterminate content junk. -/
def malloc (junk : Nat → Char) (n : Nat) : List Char := (List.range n).map junk

/-- The C string held by a buffer: its bytes up to the first NUL. -/
def cstr (buf : List Char) : Str := buf.takeWhile (fun c => c ≠ NUL)

/-- Function initstr of weasel.c (allocation succeeds): allocate len + 1 bytes, write
the filler at the indices below len and the terminator at index len. -/
def initstr (junk : Nat → Char) (len : Nat) : Str :=
  let buf := malloc junk (len + 1)
  let buf := forLoop 0 (fun i b => b.set i 'A') len buf
  cstr (buf.set len NUL)

/-- Function initstrs of weasel.c: initialise each of the slots of the array. -/
def initstrs (junk : Nat → Char) (strs : List Str) (len : Nat) : List Str :=
  forLoop 0 (fun i st => st.set i (initstr junk len)) strs.length strs

/-- Function compstr of weasel.c: count the indices below strlen(str0) at which the
two strings hold the same character. -/
def compstr (str0 str1 : Str) : Nat :=
  let len := str0.length
  forLoop 0 (fun i ret => if charAt str0 i = charAt str1 i then ret + 1 else ret) len 0

/-- The counter of compstr after its first n iterations. -/
def compstrUpTo (str0 str1 : Str) (n : Nat) : Nat :=
  forLoop 0 (fun i ret => if charAt str0 i = charAt str1 i then ret + 1 else ret) n 0

/-- Function binprob of weasel.c: one draw, answer true when prob >= test.  The second
component is the position of the next draw.  The quotient and the comparison are exact
here, whereas weasel.c rounds prob and test to float: the two agree for prob = 0 and, on
draws that do not exceed RAND_MAX, for prob = 1, and they can differ when prob lies
strictly between 0 and 1 and test is within rounding distance of it. -/
def binprob (RAND_MAX : Nat) (draws : Nat → Nat) (prob : ℚ) (k : Nat) : Bool × Nat :=
  let test : ℚ := (draws k : ℚ) / (RAND_MAX : ℚ)
  (decide (prob ≥ test), k + 1)

/-- The do-while loop of cumprob: add inc = 1 / alphabet, with alphabet = 26, to cum,
increment i, stop as soon as cum >= test.  The recursion is well founded because cum
grows by 1 / 26 at each turn. -/
def cumprobLoop (test : ℚ) (cum : ℚ) (i : Nat) : Nat :=
  let inc : ℚ := 1 / 26
  let cum1 := cum + inc
  let i1 := i + 1
  if cum1 ≥ test then i1 else cumprobLoop test cum1 i1
termination_by Nat.ceil ((test - cum) * 26)
decreasing_by
  rename_i h
  have hlt : cum + 1 / 26 < test := not_le.mp h
  have e : (test - (cum + 1 / 26)) * 26 = (test - cum) * 26 - 1 := by ring
  have hpos : 0 < Nat.ceil ((test - cum) * 26) := Nat.ceil_pos.mpr (by linarith)
  have hle : Nat.ceil ((test - cum) * 26 - 1) ≤ Nat.ceil ((test - cum) * 26) - 1 := by
    rw [Nat.ceil_le, Nat.cast_sub hpos]
    have := Nat.le_ceil ((test - cum) * 26)
    simp only [Nat.cast_one]
    linarith
  rw [e]
  omega

/-- Function cumprob of weasel.c: one draw, then the cumulative walk from cum = 0 and
i = 1. -/
def cumprob (RAND_MAX : Nat) (draws : Nat → Nat) (k : Nat) : Nat × Nat :=
  let test : ℚ := (draws k : ℚ) / (RAND_MAX : ℚ)
  (cumprobLoop test 0 1, k + 1)

/-- Function randchar of weasel.c: the switch over the letter number returned by
cumprob; the default case leaves the character as it is. -/
def randchar (RAND_MAX : Nat) (draws : Nat → Nat) (k : Nat) (ch : Char) : Char × Nat :=
  let r := cumprob RAND_MAX draws k
  let c : Char :=
    match r.1 with
    | 1 => 'A'
    | 2 => 'B'
    | 3 => 'C'
    | 4 => 'D'
    | 5 => 'E'
    | 6 => 'F'
    | 7 => 'G'
    | 8 => 'H'
    | 9 => 'I'
    | 10 => 'J'
    | 11 => 'K'
    | 12 => 'L'
    | 13 => 'M'
    | 14 => 'N'
    | 15 => 'O'
    | 16 => 'P'
    | 17 => 'Q'
    | 18 => 'R'
    | 19 => 'S'
    | 20 => 'T'
    | 21 => 'U'
    | 22 => 'V'
    | 23 => 'W'
    | 24 => 'X'
    | 25 => 'Y'
    | 26 => 'Z'
    | 27 => Char.ofNat 32
    | _ => ch
  (c, r.2)

/-- The 27 symbols in the order of the switch of randchar: A to Z, then the space. -/
def alphabetOrder : List Char :=
  ['A', 'B', 'C', 'D', 'E', 'F', 'G', 'H', 'I', 'J', 'K', 'L', 'M', 'N', 'O', 'P', 'Q',
    'R', 'S', 'T', 'U', 'V', 'W', 'X', 'Y', 'Z', Char.ofNat 32]

/-- The selection that the specification describes for a draw r in [0,1): 27 bins of
equal width in the order A to Z, space; the symbol of the bin that contains r. -/
def specSymbol (r : ℚ) : Char := alphabetOrder.getD (Nat.floor (27 * r)) (Char.ofNat 32)

/-- Function randstr of weasel.c: for each index below strlen(str0), ask binprob and, on
true, let randchar overwrite the character.  The state is the string and the position
of the next draw. -/
def randstr (RAND_MAX : Nat) (draws : Nat → Nat) (prob : ℚ) (str0 : Str) (k : Nat) :
    Str × Nat :=
  let len := str0.length
  forLoop 0 (fun i (st : Str × Nat) =>
      let b := binprob RAND_MAX draws prob st.2
      if b.1 then
        let c := randchar RAND_MAX draws b.2 (charAt st.1 i)
        (st.1.set i c.1, c.2)
      else (st.1, b.2)) len (str0, k)

/-- Function randstrs of weasel.c: randstr on the strings at the indices 1 .. size - 1. -/
def randstrs (RAND_MAX : Nat) (draws : Nat → Nat) (prob : ℚ) (strs : List Str) (k : Nat) :
    List Str × Nat :=
  forLoop 1 (fun i (st : List Str × Nat) =>
      let r := randstr RAND_MAX draws prob (st.1.getD i []) st.2
      (st.1.set i r.1, r.2)) strs.length (strs, k)

/-- Function compstrs of weasel.c.  The state of the loop is (max, num); num is declared
without a value, so it is none until the first assignment, and the function returns
it as it is. -/
def compstrs (strs : List Str) (input : Str) : Option Nat :=
  (forLoop 0 (fun i (st : Nat × Option Nat) =>
      let tmp := compstr (strs.getD i []) input
      if tmp > st.1 then (tmp, some i) else st) strs.length (0, none)).2

/-- Function cpywin of weasel.c: strcpy(strs[i], strs[win]) for each index i in turn.
Every buffer is taken to be large enough for the copy, and win to be an index of the
array (the callers of the model pass no other index). -/
def cpywin (strs : List Str) (win : Nat) : List Str :=
  forLoop 0 (fun i st => st.set i (st.getD win [])) strs.length strs

/-- A line written to the standard output by the loop of main. -/
inductive Line where
  | report (i : Nat) (s : Str)
  | userEscape
  deriving DecidableEq, Repr

/-- The variables of the loop of main: the population, the generation counter i, the
position k of the next draw, the lines printed so far and the flag named end. -/
structure Loop where
  strs : List Str
  i : Nat
  k : Nat
  out : List Line
  ended : Bool
  deriving DecidableEq, Repr

/-- One pass through the body of the do-while loop of main, entered with end = false.
The result is none when compstrs returns a variable that has no value. -/
def generation (RAND_MAX : Nat) (draws : Nat → Nat) (prob : ℚ) (input : Str)
    (kbhit : Bool) (s : Loop) : Option Loop :=
  let r := randstrs RAND_MAX draws prob s.strs s.k
  match compstrs r.1 input with
  | none => none
  | some win =>
    let out1 := if win ≠ 0 then s.out ++ [Line.report s.i (r.1.getD win [])] else s.out
    let end1 :=
      if win ≠ 0 then decide (compstr (r.1.getD win []) input = input.length) else false
    let strs2 := cpywin r.1 win
    let out2 := if kbhit then out1 ++ [Line.userEscape] else out1
    let end2 := if kbhit then true else end1
    some ⟨strs2, s.i + 1, r.2, out2, end2⟩

/-- The do-while loop of main, for at most fuel generations: the state in which the
loop is left (ended = true), or the state after fuel generations. -/
def mainLoop (RAND_MAX : Nat) (draws : Nat → Nat) (prob : ℚ) (input : Str)
    (kbhit : Nat → Bool) : Nat → Loop → Option Loop
  | 0, s => some s
  | fuel + 1, s =>
    match generation RAND_MAX draws prob input (kbhit s.i) s with
    | none => none
    | some s1 => if s1.ended then some s1 else mainLoop RAND_MAX draws prob input kbhit fuel s1

/-- The state in which main enters its loop: numstrs strings of strlen(argv[1]) fillers. -/
def initial (junk : Nat → Char) (input : Str) (numstrs : Nat) : Loop :=
  ⟨initstrs junk (List.replicate numstrs []) input.length, 0, 0, [], false⟩

/-- Function main of weasel.c, for at most fuel generations. -/
def main (junk : Nat → Char) (RAND_MAX : Nat) (draws : Nat → Nat) (kbhit : Nat → Bool)
    (input : Str) (prob : ℚ) (numstrs : Nat) (fuel : Nat) : Option Loop :=
  mainLoop RAND_MAX draws prob input kbhit fuel (initial junk input numstrs)

/-- The loop of randstr with the test of binprob removed: the draw of binprob is still
consumed, and randchar is called at every index. -/
def redrawstr (RAND_MAX : Nat) (draws : Nat → Nat) (str0 : Str) (k : Nat) : Str × Nat :=
  forLoop 0 (fun i (st : Str × Nat) =>
      let c := randchar RAND_MAX draws (st.2 + 1) (charAt st.1 i)
      (st.1.set i c.1, c.2)) str0.length (str0, k)

/-- The scores, against the input, of the strings reported in the lines printed. -/
def reportScores (input : Str) : List Line → List Nat
  | [] => []
  | Line.report _ s :: rest => compstr s input :: reportScores input rest
  | Line.userEscape :: rest => reportScores input rest

/-- The do-while loop of cumprob limited to fuel iterations: none when cum >= test has
not been reached within that many iterations. -/
def cumprobLoopFuel : Nat → ℚ → ℚ → Nat → Option Nat
  | 0, _, _, _ => none
  | fuel + 1, test, cum, i =>
    if cum + 1 / 26 ≥ test then some (i + 1)
    else cumprobLoopFuel fuel test (cum + 1 / 26) (i + 1)

/-- A stream of draws for RAND_MAX = 32767 and probability 1 / 10: the first six draws
make randstr turn AAA into CBT (each test of binprob draws 0, the letters draw 2000,
0 and 23000), and every later draw is RAND_MAX, for which binprob answers false. -/
def drawsToCBT : Nat → Nat := fun j => [0, 2000, 0, 0, 0, 23000].getD j 32767

/-! ## Counted loops -/

theorem forLoop_zero_succ {σ : Type} (body : Nat → σ → σ) (hi : Nat) (s : σ) :
    forLoop 0 body (hi + 1) s = body hi (forLoop 0 body hi s) := by
  simp [forLoop]

/-- A property that holds on entry and that every iteration preserves holds on exit. -/
theorem forLoop_preserves {σ : Type} (P : σ → Prop) (lo : Nat) (body : Nat → σ → σ)
    (hi : Nat) (s : σ) (h0 : P s)
    (hstep : ∀ i t, lo ≤ i → i < hi → P t → P (body i t)) :
    P (forLoop lo body hi s) := by
  induction hi with
  | zero => simpa [forLoop] using h0
  | succ n ih =>
    have ihn := ih (fun i t hlo hlt ht => hstep i t hlo (Nat.lt_succ_of_lt hlt) ht)
    by_cases hle : lo ≤ n
    · simp only [forLoop, hle, if_true]
      exact hstep n _ hle (Nat.lt_succ_self n) ihn
    · simpa [forLoop, hle] using h0

/-- Loop invariant indexed by the number of completed iterations, for a loop from 0. -/
theorem forLoop_invariant {σ : Type} (P : Nat → σ → Prop) (body : Nat → σ → σ)
    (hi : Nat) (s : σ) (h0 : P 0 s)
    (hstep : ∀ i t, i < hi → P i t → P (i + 1) (body i t)) :
    P hi (forLoop 0 body hi s) := by
  induction hi with
  | zero => simpa [forLoop] using h0
  | succ n ih =>
    rw [forLoop_zero_succ]
    exact hstep n _ (Nat.lt_succ_self n)
      (ih (fun i t hlt ht => hstep i t (Nat.lt_succ_of_lt hlt) ht))

/-! ## The score computed by compstr -/

theorem compstr_eq_upTo (str0 str1 : Str) :
    compstr str0 str1 = compstrUpTo str0 str1 str0.length := rfl

theorem compstrUpTo_succ (str0 str1 : Str) (n : Nat) :
    compstrUpTo str0 str1 (n + 1) =
      if charAt str0 n = charAt str1 n then compstrUpTo str0 str1 n + 1
      else compstrUpTo str0 str1 n := by
  simp [compstrUpTo, forLoop_zero_succ]

theorem compstrUpTo_le (str0 str1 : Str) (n : Nat) : compstrUpTo str0 str1 n ≤ n := by
  induction n with
  | zero => simp [compstrUpTo, forLoop]
  | succ n ih =>
    rw [compstrUpTo_succ]
    split <;> omega

theorem compstrUpTo_comm (str0 str1 : Str) (n : Nat) :
    compstrUpTo str0 str1 n = compstrUpTo str1 str0 n := by
  induction n with
  | zero => simp [compstrUpTo, forLoop]
  | succ n ih =>
    rw [compstrUpTo_succ, compstrUpTo_succ, ih]
    by_cases h : charAt str0 n = charAt str1 n
    · simp [h]
    · have h2 : ¬ charAt str1 n = charAt str0 n := fun e => h e.symm
      simp [h, h2]

theorem compstrUpTo_eq_card (str0 str1 : Str) (n : Nat) :
    compstrUpTo str0 str1 n =
      ((Finset.range n).filter (fun i => charAt str0 i = charAt str1 i)).card := by
  induction n with
  | zero => simp [compstrUpTo, forLoop]
  | succ n ih =>
    rw [compstrUpTo_succ, Finset.range_succ, Finset.filter_insert, ih]
    by_cases h : charAt str0 n = charAt str1 n
    · simp [h]
    · simp [h]

theorem compstrUpTo_full_iff (str0 str1 : Str) (n : Nat) :
    compstrUpTo str0 str1 n = n ↔ ∀ i, i < n → charAt str0 i = charAt str1 i := by
  induction n with
  | zero => simp [compstrUpTo, forLoop]
  | succ n ih =>
    rw [compstrUpTo_succ]
    have hle := compstrUpTo_le str0 str1 n
    by_cases h : charAt str0 n = charAt str1 n
    · simp only [h, if_true, Nat.add_right_cancel_iff, ih]
      constructor
      · intro hall i hi
        rcases Nat.lt_succ_iff_lt_or_eq.mp hi with hlt | heq
        · exact hall i hlt
        · rw [heq]; exact h
      · intro hall i hi
        exact hall i (Nat.lt_succ_of_lt hi)
    · simp only [h, if_false]
      constructor
      · intro e; omega
      · intro hall; exact absurd (hall n (Nat.lt_succ_self n)) h

theorem charAt_of_lt (str : Str) (i : Nat) (h : i < str.length) :
    charAt str i = str.get ⟨i, h⟩ := by
  simp [charAt, List.getD_eq_getElem?_getD, List.getElem?_eq_getElem h]

theorem charAt_eq_iff_getElem? (str0 str1 : Str) (i : Nat) (h0 : i < str0.length)
    (h1 : i < str1.length) : charAt str0 i = charAt str1 i ↔ str0[i]? = str1[i]? := by
  simp [charAt, List.getD_eq_getElem?_getD, List.getElem?_eq_getElem h0,
    List.getElem?_eq_getElem h1]

/-- Equal lengths and a full score force equal strings. -/
theorem eq_of_compstr_eq_length (str0 str1 : Str) (hlen : str0.length = str1.length)
    (h : compstr str0 str1 = str0.length) : str0 = str1 := by
  rw [compstr_eq_upTo, compstrUpTo_full_iff] at h
  apply List.ext_get hlen
  intro i h0 h1
  have := h i h0
  rwa [charAt_of_lt str0 i h0, charAt_of_lt str1 i h1] at this

theorem compstr_self (str : Str) : compstr str str = str.length := by
  rw [compstr_eq_upTo, compstrUpTo_full_iff]
  intro i _
  rfl

theorem compstr_comm_of_length_eq (str0 str1 : Str) (hlen : str0.length = str1.length) :
    compstr str0 str1 = compstr str1 str0 := by
  rw [compstr_eq_upTo, compstr_eq_upTo, ← hlen]
  exact compstrUpTo_comm str0 str1 str0.length

theorem compstr_eq_card_of_length_eq (str0 str1 : Str) (hlen : str0.length = str1.length) :
    compstr str0 str1 =
      ((Finset.range str0.length).filter (fun i => str0[i]? = str1[i]?)).card := by
  rw [compstr_eq_upTo, compstrUpTo_eq_card]
  congr 1
  apply Finset.filter_congr
  intro i hi
  have h0 : i < str0.length := Finset.mem_range.mp hi
  exact charAt_eq_iff_getElem? str0 str1 i h0 (hlen ▸ h0)

/-! ## The selection made by compstrs -/

/-- The state (max, num) of the loop of compstrs after n iterations. -/
theorem compstrs_loop_spec (strs : List Str) (input : Str) (n : Nat) :
    let st := forLoop 0 (fun i (st : Nat × Option Nat) =>
      let tmp := compstr (strs.getD i []) input
      if tmp > st.1 then (tmp, some i) else st) n (0, none)
    (∀ j, j < n → compstr (strs.getD j []) input ≤ st.1) ∧
    (st.2 = none → st.1 = 0) ∧
    (∀ w, st.2 = some w → w < n ∧ compstr (strs.getD w []) input = st.1 ∧ 0 < st.1 ∧
      ∀ j, j < w → compstr (strs.getD j []) input < st.1) := by
  induction n with
  | zero => simp [forLoop]
  | succ n ih =>
    rw [forLoop_zero_succ]
    obtain ⟨hmax, hnone, hsome⟩ := ih
    generalize forLoop 0 _ n (0, none) = st at hmax hnone hsome
    obtain ⟨mx, num⟩ := st
    simp only at hmax hnone hsome ⊢
    by_cases hgt : compstr (strs.getD n []) input > mx
    · simp only [hgt, if_true]
      refine ⟨?_, ?_, ?_⟩
      · intro j hj
        rcases Nat.lt_succ_iff_lt_or_eq.mp hj with hlt | heq
        · exact le_of_lt (lt_of_le_of_lt (hmax j hlt) hgt)
        · rw [heq]
      · intro h; cases h
      · intro w hw
        cases hw
        exact ⟨Nat.lt_succ_self _, rfl, by omega, fun j hj => lt_of_le_of_lt (hmax j hj) hgt⟩
    · simp only [hgt, if_false]
      refine ⟨?_, hnone, ?_⟩
      · intro j hj
        rcases Nat.lt_succ_iff_lt_or_eq.mp hj with hlt | heq
        · exact hmax j hlt
        · rw [heq]; omega
      · intro w hw
        obtain ⟨h1, h2, h3, h4⟩ := hsome w hw
        exact ⟨Nat.lt_succ_of_lt h1, h2, h3, h4⟩

/-- What a returned index satisfies. -/
theorem compstrs_some_spec (strs : List Str) (input : Str) (w : Nat)
    (h : compstrs strs input = some w) :
    w < strs.length ∧ 0 < compstr (strs.getD w []) input ∧
    (∀ j, j < strs.length → compstr (strs.getD j []) input ≤ compstr (strs.getD w []) input) ∧
    (∀ j, j < w → compstr (strs.getD j []) input < compstr (strs.getD w []) input) := by
  obtain ⟨hmax, _, hsome⟩ := compstrs_loop_spec strs input strs.length
  obtain ⟨h1, h2, h3, h4⟩ := hsome w h
  refine ⟨h1, by omega, ?_, ?_⟩
  · intro j hj; rw [h2]; exact hmax j hj
  · intro j hj; rw [h2]; exact h4 j hj

/-- The variable num keeps no value exactly when no string scores above 0. -/
theorem compstrs_eq_none_iff (strs : List Str) (input : Str) :
    compstrs strs input = none ↔
      ∀ j, j < strs.length → compstr (strs.getD j []) input = 0 := by
  obtain ⟨hmax, hnone, hsome⟩ := compstrs_loop_spec strs input strs.length
  constructor
  · intro h j hj
    have h0 := hnone h
    have := hmax j hj
    omega
  · intro hall
    cases hc : compstrs strs input with
    | none => rfl
    | some w =>
      obtain ⟨h1, h2, h3, _⟩ := hsome w hc
      have := hall w h1
      omega

/-! ## The replication made by cpywin -/

theorem cpywin_loop_spec (strs : List Str) (win : Nat) (n : Nat) (hn : n ≤ strs.length) :
    let st := forLoop 0 (fun i (st : List Str) => st.set i (st.getD win [])) n strs
    st.length = strs.length ∧
    ∀ j, j < strs.length →
      st[j]? = some (if j < n then strs.getD win [] else strs.getD j []) := by
  induction n with
  | zero =>
    simp only [forLoop, Nat.not_lt_zero, if_false, true_and]
    intro j hj
    simp [List.getElem?_eq_getElem hj]
  | succ n ih =>
    rw [forLoop_zero_succ]
    obtain ⟨hlen, hget⟩ := ih (Nat.le_of_succ_le hn)
    generalize forLoop 0 _ n strs = st at hlen hget
    have hwin : st.getD win [] = strs.getD win [] := by
      by_cases hw : win < strs.length
      · rw [List.getD_eq_getElem?_getD, hget win hw]
        by_cases hwn : win < n <;> simp [hwn]
      · have h1 : strs.length ≤ win := Nat.le_of_not_lt hw
        rw [List.getD_eq_getElem?_getD, List.getD_eq_getElem?_getD,
          List.getElem?_eq_none (hlen ▸ h1), List.getElem?_eq_none h1]
    refine ⟨by simp [hlen], ?_⟩
    intro j hj
    rw [List.getElem?_set, hwin]
    by_cases hnj : n = j
    · subst hnj
      have : n < st.length := by omega
      simp [this]
    · rw [if_neg hnj, hget j hj]
      have : j < n + 1 ↔ j < n := by omega
      simp only [this]

theorem cpywin_eq_replicate (strs : List Str) (win : Nat) :
    cpywin strs win = List.replicate strs.length (strs.getD win []) := by
  obtain ⟨hlen, hget⟩ := cpywin_loop_spec strs win strs.length (Nat.le_refl _)
  apply List.ext_getElem?
  intro j
  by_cases hj : j < strs.length
  · have := hget j hj
    simp only [hj, if_true] at this
    rw [cpywin, this, List.getElem?_replicate]
    simp [hj]
  · have h1 : strs.length ≤ j := Nat.le_of_not_lt hj
    rw [cpywin, List.getElem?_eq_none (by omega), List.getElem?_eq_none (by simp [h1])]

/-! ## Writing one value at successive indices -/

theorem forLoop_set_const {α : Type} (c : α) (l : List α) (n : Nat) (hn : n ≤ l.length) :
    let st := forLoop 0 (fun i (st : List α) => st.set i c) n l
    st.length = l.length ∧ ∀ j, st[j]? = if j < n then some c else l[j]? := by
  induction n with
  | zero => simp [forLoop]
  | succ n ih =>
    rw [forLoop_zero_succ]
    obtain ⟨hlen, hget⟩ := ih (Nat.le_of_succ_le hn)
    generalize forLoop 0 _ n l = st at hlen hget
    refine ⟨by simp [hlen], ?_⟩
    intro j
    rw [List.getElem?_set, hget j]
    by_cases hnj : n = j
    · subst hnj
      have : n < st.length := by omega
      simp [this]
    · rw [if_neg hnj]
      have : j < n + 1 ↔ j < n := by omega
      simp only [this]

theorem set_getD_self {α : Type} (l : List α) (i : Nat) (d : α) (h : i < l.length) :
    l.set i (l.getD i d) = l := by
  apply List.ext_getElem?
  intro j
  rw [List.getElem?_set]
  by_cases hij : i = j
  · subst hij
    simp [h, List.getElem?_eq_getElem h]
  · simp [hij]

theorem getD_mem {α : Type} (l : List α) (i : Nat) (d : α) (h : i < l.length) :
    l.getD i d ∈ l := by
  rw [List.getD_eq_getElem?_getD, List.getElem?_eq_getElem h]
  exact List.getElem_mem h

/-! ## Initialisation -/

theorem cstr_replicate_filler (n : Nat) :
    cstr (List.replicate n 'A' ++ [NUL]) = List.replicate n 'A' := by
  induction n with
  | zero => simp [cstr, List.takeWhile]
  | succ n ih =>
    have hA : ('A' : Char) ≠ NUL := by decide
    simp only [cstr] at ih
    simp [cstr, List.replicate_succ, List.takeWhile, hA, ih]

theorem initstr_eq (junk : Nat → Char) (len : Nat) :
    initstr junk len = List.replicate len 'A' := by
  have hm : (malloc junk (len + 1)).length = len + 1 := by simp [malloc]
  obtain ⟨hlen, hget⟩ := forLoop_set_const 'A' (malloc junk (len + 1)) len (by omega)
  simp only [initstr]
  generalize forLoop 0 _ len (malloc junk (len + 1)) = buf at hlen hget
  have hbuf : buf.set len NUL = List.replicate len 'A' ++ [NUL] := by
    apply List.ext_getElem?
    intro j
    rw [List.getElem?_set, hget j]
    by_cases hj : j < len
    · have hne : ¬ len = j := by omega
      simp [hj, hne, List.getElem?_append_left]
    · by_cases hje : len = j
      · subst hje
        have : len < buf.length := by omega
        simp [this, List.getElem?_append_right]
      · have h1 : len + 1 ≤ j := by omega
        rw [if_neg hje, if_neg hj, List.getElem?_eq_none (by omega),
          List.getElem?_eq_none (by simp; omega)]
  rw [hbuf, cstr_replicate_filler]

theorem initstrs_eq (junk : Nat → Char) (strs : List Str) (len : Nat) :
    initstrs junk strs len = List.replicate strs.length (List.replicate len 'A') := by
  obtain ⟨hlen, hget⟩ :=
    forLoop_set_const (initstr junk len) strs strs.length (Nat.le_refl _)
  apply List.ext_getElem?
  intro j
  rw [initstrs, hget j, List.getElem?_replicate, initstr_eq]
  by_cases hj : j < strs.length
  · simp [hj]
  · simp [hj, List.getElem?_eq_none (Nat.le_of_not_lt hj)]

/-! ## Mutation -/

theorem randstr_length (RAND_MAX : Nat) (draws : Nat → Nat) (prob : ℚ) (str0 : Str)
    (k : Nat) : (randstr RAND_MAX draws prob str0 k).1.length = str0.length := by
  apply forLoop_preserves (fun st : Str × Nat => st.1.length = str0.length)
  · rfl
  · intro i t _ _ ht
    simp only
    split
    · simpa using ht
    · exact ht

/-- When binprob never answers true, randstr changes nothing and consumes one draw
for each character. -/
theorem randstr_of_binprob_false (RAND_MAX : Nat) (draws : Nat → Nat) (prob : ℚ)
    (hb : ∀ j, (binprob RAND_MAX draws prob j).1 = false) (str0 : Str) (k : Nat) :
    randstr RAND_MAX draws prob str0 k = (str0, k + str0.length) := by
  have key : ∀ n, forLoop 0 (fun i (st : Str × Nat) =>
      let b := binprob RAND_MAX draws prob st.2
      if b.1 then
        let c := randchar RAND_MAX draws b.2 (charAt st.1 i)
        (st.1.set i c.1, c.2)
      else (st.1, b.2)) n (str0, k) = (str0, k + n) := by
    intro n
    induction n with
    | zero => simp [forLoop]
    | succ n ih =>
      rw [forLoop_zero_succ, ih]
      have h1 := hb (k + n)
      have h2 : (binprob RAND_MAX draws prob (k + n)).2 = k + n + 1 := rfl
      simp only [h1, h2, Bool.false_eq_true, if_false, Nat.add_assoc]
  exact key str0.length

theorem randstrs_of_binprob_false (RAND_MAX : Nat) (draws : Nat → Nat) (prob : ℚ)
    (hb : ∀ j, (binprob RAND_MAX draws prob j).1 = false) (strs : List Str) (k : Nat) :
    (randstrs RAND_MAX draws prob strs k).1 = strs := by
  apply forLoop_preserves (fun st : List Str × Nat => st.1 = strs)
  · rfl
  · intro i t _ hi ht
    simp only at ht ⊢
    rw [randstr_of_binprob_false RAND_MAX draws prob hb, ht]
    exact set_getD_self strs i [] hi

theorem randstrs_lengths (RAND_MAX : Nat) (draws : Nat → Nat) (prob : ℚ) (strs : List Str)
    (k : Nat) (L : Nat) (h : ∀ c, c ∈ strs → c.length = L) :
    (randstrs RAND_MAX draws prob strs k).1.length = strs.length ∧
      ∀ c, c ∈ (randstrs RAND_MAX draws prob strs k).1 → c.length = L := by
  apply forLoop_preserves
    (fun st : List Str × Nat => st.1.length = strs.length ∧ ∀ c, c ∈ st.1 → c.length = L)
  · exact ⟨rfl, h⟩
  · intro i t _ hi ht
    obtain ⟨hlen, hall⟩ := ht
    refine ⟨by simpa using hlen, ?_⟩
    intro c hc
    rcases List.mem_or_eq_of_mem_set hc with hmem | heq
    · exact hall c hmem
    · rw [heq, randstr_length]
      exact hall _ (getD_mem t.1 i [] (by omega))

theorem binprob_zero_of_pos (RAND_MAX : Nat) (draws : Nat → Nat) (hR : 0 < RAND_MAX)
    (hd : ∀ j, 0 < draws j) (j : Nat) : (binprob RAND_MAX draws 0 j).1 = false := by
  have h1 : (0 : ℚ) < (draws j : ℚ) / (RAND_MAX : ℚ) :=
    div_pos (by exact_mod_cast hd j) (by exact_mod_cast hR)
  simp [binprob, h1]

/-! ## The loop of main -/

theorem generation_of_compstrs_some (RAND_MAX : Nat) (draws : Nat → Nat) (prob : ℚ)
    (input : Str) (kbhit : Bool) (s : Loop) (win : Nat)
    (h : compstrs (randstrs RAND_MAX draws prob s.strs s.k).1 input = some win) :
    generation RAND_MAX draws prob input kbhit s =
      some ⟨cpywin (randstrs RAND_MAX draws prob s.strs s.k).1 win, s.i + 1,
        (randstrs RAND_MAX draws prob s.strs s.k).2,
        if kbhit then
          (if win ≠ 0 then
            s.out ++ [Line.report s.i ((randstrs RAND_MAX draws prob s.strs s.k).1.getD win [])]
          else s.out) ++ [Line.userEscape]
        else
          (if win ≠ 0 then
            s.out ++ [Line.report s.i ((randstrs RAND_MAX draws prob s.strs s.k).1.getD win [])]
          else s.out),
        if kbhit then true
        else
          (if win ≠ 0 then
            decide (compstr ((randstrs RAND_MAX draws prob s.strs s.k).1.getD win []) input
              = input.length)
          else false)⟩ := by
  simp only [generation, h]

theorem generation_of_compstrs_none (RAND_MAX : Nat) (draws : Nat → Nat) (prob : ℚ)
    (input : Str) (kbhit : Bool) (s : Loop)
    (h : compstrs (randstrs RAND_MAX draws prob s.strs s.k).1 input = none) :
    generation RAND_MAX draws prob input kbhit s = none := by
  simp only [generation, h]

/-- Every string of the population keeps the length L through a generation. -/
theorem generation_lengths (RAND_MAX : Nat) (draws : Nat → Nat) (prob : ℚ) (input : Str)
    (kbhit : Bool) (s s1 : Loop) (L : Nat) (hL : ∀ c, c ∈ s.strs → c.length = L)
    (hg : generation RAND_MAX draws prob input kbhit s = some s1) :
    ∀ c, c ∈ s1.strs → c.length = L := by
  cases hc : compstrs (randstrs RAND_MAX draws prob s.strs s.k).1 input with
  | none => rw [generation_of_compstrs_none _ _ _ _ _ _ hc] at hg; cases hg
  | some win =>
    rw [generation_of_compstrs_some _ _ _ _ _ _ _ hc] at hg
    obtain ⟨hw, _⟩ := compstrs_some_spec _ _ _ hc
    obtain ⟨_, hall⟩ := randstrs_lengths RAND_MAX draws prob s.strs s.k L hL
    cases hg
    intro c hmem
    simp only [cpywin_eq_replicate] at hmem
    rw [List.eq_of_mem_replicate hmem]
    exact hall _ (getD_mem _ win [] hw)

/-- A generation without keypress that sets the flag end has just reported the input. -/
theorem generation_ended (RAND_MAX : Nat) (draws : Nat → Nat) (prob : ℚ) (input : Str)
    (s s1 : Loop) (hL : ∀ c, c ∈ s.strs → c.length = input.length)
    (hg : generation RAND_MAX draws prob input false s = some s1)
    (hend : s1.ended = true) :
    s1.out.getLast? = some (Line.report s.i input) ∧ s1.i = s.i + 1 := by
  cases hc : compstrs (randstrs RAND_MAX draws prob s.strs s.k).1 input with
  | none => rw [generation_of_compstrs_none _ _ _ _ _ _ hc] at hg; cases hg
  | some win =>
    rw [generation_of_compstrs_some _ _ _ _ _ _ _ hc] at hg
    obtain ⟨hw, _⟩ := compstrs_some_spec _ _ _ hc
    obtain ⟨_, hall⟩ := randstrs_lengths RAND_MAX draws prob s.strs s.k input.length hL
    have hlen := hall _ (getD_mem _ win [] hw)
    cases hg
    by_cases h0 : win = 0
    · simp [h0] at hend
    · simp only [Bool.false_eq_true, if_false, ne_eq, h0, not_false_eq_true, if_true,
        decide_eq_true_eq] at hend ⊢
      have heq := eq_of_compstr_eq_length _ input hlen (by rw [hend, hlen])
      rw [heq]
      simp

theorem mainLoop_ended (RAND_MAX : Nat) (draws : Nat → Nat) (prob : ℚ) (input : Str)
    (kbhit : Nat → Bool) (fuel : Nat) :
    ∀ s s1 : Loop, (∀ c, c ∈ s.strs → c.length = input.length) → s.ended = false →
      mainLoop RAND_MAX draws prob input kbhit fuel s = some s1 → s1.ended = true →
      kbhit (s1.i - 1) = false →
      s1.out.getLast? = some (Line.report (s1.i - 1) input) := by
  induction fuel with
  | zero =>
    intro s s1 _ hrun h hend _
    simp only [mainLoop, Option.some.injEq] at h
    rw [← h, hrun] at hend
    cases hend
  | succ n ih =>
    intro s s1 hL _ h hend hkb
    simp only [mainLoop] at h
    cases hg : generation RAND_MAX draws prob input (kbhit s.i) s with
    | none => rw [hg] at h; cases h
    | some s2 =>
      rw [hg] at h
      simp only at h
      by_cases he : s2.ended = true
      · simp only [he, if_true, Option.some.injEq] at h
        subst h
        have hi : s2.i = s.i + 1 := by
          cases hc : compstrs (randstrs RAND_MAX draws prob s.strs s.k).1 input with
          | none => rw [generation_of_compstrs_none _ _ _ _ _ _ hc] at hg; cases hg
          | some win => rw [generation_of_compstrs_some _ _ _ _ _ _ _ hc] at hg; cases hg; rfl
        have hk : kbhit s.i = false := by
          have : s2.i - 1 = s.i := by omega
          rw [← this]; exact hkb
        rw [hk] at hg
        obtain ⟨h1, h2⟩ := generation_ended RAND_MAX draws prob input s s2 hL hg he
        rw [h1, h2]
        simp
      · simp only [he, if_false] at h
        exact ih s2 s1 (generation_lengths _ _ _ _ _ s s2 _ hL hg)
          (by simpa using he) h hend hkb

theorem initial_lengths (junk : Nat → Char) (input : Str) (numstrs : Nat) :
    ∀ c, c ∈ (initial junk input numstrs).strs → c.length = input.length := by
  intro c hc
  simp only [initial, initstrs_eq] at hc
  rw [List.eq_of_mem_replicate hc]
  simp

/-! ## The claims -/

/-- Claim C2: for every input, probability, population size and stream of draws, when
the loop of main is left with the flag end set and no keypress in its last generation,
the last line printed is the report of the input itself, whose score is its length. -/
theorem terminated_run_reports_input (junk : Nat → Char) (RAND_MAX : Nat)
    (draws : Nat → Nat) (kbhit : Nat → Bool) (input : Str) (prob : ℚ)
    (numstrs fuel : Nat) (s : Loop)
    (hrun : main junk RAND_MAX draws kbhit input prob numstrs fuel = some s)
    (hend : s.ended = true) (hkb : kbhit (s.i - 1) = false) :
    s.out.getLast? = some (Line.report (s.i - 1) input) ∧
      compstr input input = input.length :=
  ⟨mainLoop_ended RAND_MAX draws prob input kbhit fuel (initial junk input numstrs) s
      (initial_lengths junk input numstrs) rfl hrun hend hkb,
    compstr_self input⟩

/-- Witness for claim C2: input B, probability 1, two strings, every draw 0. -/
theorem terminated_run_reports_input_witness :
    main (fun _ => 'x') 32767 (fun _ => 0) (fun _ => false) ['B'] 1 2 3 =
      some ⟨[['B'], ['B']], 1, 2, [Line.report 0 ['B']], true⟩ ∧
    [Line.report 0 ['B']].getLast? = some (Line.report (1 - 1) ['B']) ∧
    compstr ['B'] ['B'] = ['B'].length :=
  have h : main (fun _ => 'x') 32767 (fun _ => 0) (fun _ => false) ['B'] 1 2 3 =
      some ⟨[['B'], ['B']], 1, 2, [Line.report 0 ['B']], true⟩ := by
    simp [main, mainLoop, generation, initial, initstrs_eq, randstrs, compstrs, cpywin,
      compstr, randstr, forLoop, binprob, randchar, cumprob, cumprobLoop, charAt]
  ⟨h, terminated_run_reports_input (fun _ => 'x') 32767 (fun _ => 0) (fun _ => false)
    ['B'] 1 2 3 ⟨[['B'], ['B']], 1, 2, [Line.report 0 ['B']], true⟩ h rfl rfl⟩

/-- Claim C3, as amended: in a generation whose selected index win has a value, the
report of the selected string and of the generation index is printed exactly when win
is not 0; a reported string scores above 0. -/
theorem report_printed_iff_index_nonzero (RAND_MAX : Nat) (draws : Nat → Nat)
    (prob : ℚ) (input : Str) (kbhit : Bool) (s : Loop) (win : Nat)
    (hwin : compstrs (randstrs RAND_MAX draws prob s.strs s.k).1 input = some win) :
    ∃ s1, generation RAND_MAX draws prob input kbhit s = some s1 ∧
      (win ≠ 0 → s1.out = s.out ++
        [Line.report s.i ((randstrs RAND_MAX draws prob s.strs s.k).1.getD win [])] ++
        (if kbhit then [Line.userEscape] else [])) ∧
      (win = 0 → s1.out = s.out ++ (if kbhit then [Line.userEscape] else [])) ∧
      (win ≠ 0 →
        0 < compstr ((randstrs RAND_MAX draws prob s.strs s.k).1.getD win []) input) := by
  refine ⟨_, generation_of_compstrs_some RAND_MAX draws prob input kbhit s win hwin,
    ?_, ?_, ?_⟩
  · intro hne
    cases kbhit <;> simp [hne]
  · intro h0
    cases kbhit <;> simp [h0]
  · intro _
    exact (compstrs_some_spec _ _ _ hwin).2.1

/-- Witness for claim C3 as amended: the population AA, AB with input AB and no
mutation; index 1 is selected and reported. -/
theorem report_printed_iff_index_nonzero_witness :
    compstrs (randstrs 32767 (fun _ => 1) 0 [['A', 'A'], ['A', 'B']] 0).1 ['A', 'B']
      = some 1 ∧
    ∃ s1, generation 32767 (fun _ => 1) 0 ['A', 'B'] false
        ⟨[['A', 'A'], ['A', 'B']], 4, 0, [], false⟩ = some s1 ∧
      ((1 : Nat) ≠ 0 → s1.out = [] ++
        [Line.report 4
          ((randstrs 32767 (fun _ => 1) 0 [['A', 'A'], ['A', 'B']] 0).1.getD 1 [])] ++
        (if false then [Line.userEscape] else [])) ∧
      ((1 : Nat) = 0 → s1.out = [] ++ (if false then [Line.userEscape] else [])) ∧
      ((1 : Nat) ≠ 0 →
        0 < compstr ((randstrs 32767 (fun _ => 1) 0 [['A', 'A'], ['A', 'B']] 0).1.getD 1 [])
          ['A', 'B']) :=
  have h : compstrs (randstrs 32767 (fun _ => 1) 0 [['A', 'A'], ['A', 'B']] 0).1 ['A', 'B']
      = some 1 := by
    rw [randstrs_of_binprob_false 32767 (fun _ => 1) 0
      (binprob_zero_of_pos 32767 (fun _ => 1) (by decide) (fun _ => Nat.one_pos))]
    simp [compstrs, compstr, forLoop, charAt]
  ⟨h, report_printed_iff_index_nonzero 32767 (fun _ => 1) 0 ['A', 'B'] false
    ⟨[['A', 'A'], ['A', 'B']], 4, 0, [], false⟩ 1 h⟩

/-- Counterexample to claim C3 as stated: the population AA, AA with input AB, no
mutation.  The selected string is at index 0 and scores 1, and nothing is printed. -/
theorem positive_score_at_index_zero_not_reported :
    compstrs (randstrs 32767 (fun _ => 1) 0 [['A', 'A'], ['A', 'A']] 0).1 ['A', 'B']
      = some 0 ∧
    compstr ((randstrs 32767 (fun _ => 1) 0 [['A', 'A'], ['A', 'A']] 0).1.getD 0 [])
      ['A', 'B'] = 1 ∧
    (generation 32767 (fun _ => 1) 0 ['A', 'B'] false
      ⟨[['A', 'A'], ['A', 'A']], 4, 0, [], false⟩).map Loop.out = some [] := by
  have hr := randstrs_of_binprob_false 32767 (fun _ => 1) 0
    (binprob_zero_of_pos 32767 (fun _ => 1) (by decide) (fun _ => Nat.one_pos))
    [['A', 'A'], ['A', 'A']] 0
  have hc : compstrs (randstrs 32767 (fun _ => 1) 0 [['A', 'A'], ['A', 'A']] 0).1 ['A', 'B']
      = some 0 := by
    rw [hr]; simp [compstrs, compstr, forLoop, charAt]
  refine ⟨hc, ?_, ?_⟩
  · rw [hr]; simp [compstr, forLoop, charAt]
  · rw [generation_of_compstrs_some 32767 (fun _ => 1) 0 ['A', 'B'] false
      ⟨[['A', 'A'], ['A', 'A']], 4, 0, [], false⟩ 0 hc]
    simp

/-- Claim C4, evaluated at the draw rand() = 0, that is r = 0: the specification selects
the symbol of the first of 27 bins, A, whereas cumprob returns 2 and randchar writes B. -/
theorem randchar_at_draw_zero :
    specSymbol ((0 : ℚ) / 32767) = 'A' ∧
    cumprob 32767 (fun _ => 0) 0 = (2, 1) ∧
    randchar 32767 (fun _ => 0) 0 'Q' = ('B', 1) := by
  refine ⟨?_, ?_, ?_⟩
  · simp [specSymbol, alphabetOrder]
  · simp [cumprob, cumprobLoop]
  · simp [randchar, cumprob, cumprobLoop]

/-- Claim C5, evaluated at prob = 0 and the draw rand() = 0: test is 0, the comparison
0 >= 0 of binprob holds, so binprob answers true although the probability is 0; randstr
then replaces the A by B, and so does randstrs at index 1. -/
theorem mutation_at_probability_zero :
    binprob 32767 (fun _ => 0) 0 0 = (true, 1) ∧
    randstr 32767 (fun _ => 0) 0 ['A'] 0 = (['B'], 2) ∧
    (randstrs 32767 (fun _ => 0) 0 [['A'], ['A']] 0).1 = [['A'], ['B']] := by
  refine ⟨?_, ?_, ?_⟩
  · simp [binprob]
  · simp [randstr, forLoop, binprob, randchar, cumprob, cumprobLoop, charAt]
  · simp [randstrs, randstr, forLoop, binprob, randchar, cumprob, cumprobLoop, charAt]

/-- Claim C6: when some string of the population scores above 0, compstrs returns an
index of the population whose score is the maximum, and every lower index has a
strictly smaller score. -/
theorem compstrs_selects_first_maximum (strs : List Str) (input : Str)
    (h : ∃ j, j < strs.length ∧ 0 < compstr (strs.getD j []) input) :
    ∃ w, compstrs strs input = some w ∧ w < strs.length ∧
      (∀ j, j < strs.length →
        compstr (strs.getD j []) input ≤ compstr (strs.getD w []) input) ∧
      (∀ j, j < w → compstr (strs.getD j []) input < compstr (strs.getD w []) input) := by
  cases hc : compstrs strs input with
  | none =>
    obtain ⟨j, hj, hpos⟩ := h
    have := (compstrs_eq_none_iff strs input).mp hc j hj
    omega
  | some w =>
    obtain ⟨h1, _, h3, h4⟩ := compstrs_some_spec strs input w hc
    exact ⟨w, rfl, h1, h3, h4⟩

/-- Witness for claim C6: the scores against CD are 0, 1, 1 and index 1 is returned. -/
theorem compstrs_selects_first_maximum_witness :
    (∃ j, j < [['A', 'B'], ['C', 'B'], ['X', 'D']].length ∧
      0 < compstr ([['A', 'B'], ['C', 'B'], ['X', 'D']].getD j []) ['C', 'D']) ∧
    compstrs [['A', 'B'], ['C', 'B'], ['X', 'D']] ['C', 'D'] = some 1 ∧
    ∃ w, compstrs [['A', 'B'], ['C', 'B'], ['X', 'D']] ['C', 'D'] = some w ∧
      w < [['A', 'B'], ['C', 'B'], ['X', 'D']].length ∧
      (∀ j, j < [['A', 'B'], ['C', 'B'], ['X', 'D']].length →
        compstr ([['A', 'B'], ['C', 'B'], ['X', 'D']].getD j []) ['C', 'D'] ≤
          compstr ([['A', 'B'], ['C', 'B'], ['X', 'D']].getD w []) ['C', 'D']) ∧
      (∀ j, j < w →
        compstr ([['A', 'B'], ['C', 'B'], ['X', 'D']].getD j []) ['C', 'D'] <
          compstr ([['A', 'B'], ['C', 'B'], ['X', 'D']].getD w []) ['C', 'D']) :=
  have h : ∃ j, j < [['A', 'B'], ['C', 'B'], ['X', 'D']].length ∧
      0 < compstr ([['A', 'B'], ['C', 'B'], ['X', 'D']].getD j []) ['C', 'D'] :=
    ⟨1, by decide, by decide⟩
  ⟨h, by decide, compstrs_selects_first_maximum _ _ h⟩

/-- Claim C7, evaluated on the population A, A with input B, where every string scores
0: the variable num of compstrs is never assigned, so compstrs returns no value (not
the index 0) and the generation has no defined outcome. -/
theorem compstrs_all_zero_has_no_value :
    compstr ['A'] ['B'] = 0 ∧
    compstrs [['A'], ['A']] ['B'] = none ∧
    generation 32767 (fun _ => 1) 0 ['B'] false ⟨[['A'], ['A']], 0, 0, [], false⟩ = none := by
  refine ⟨by decide, by decide, ?_⟩
  apply generation_of_compstrs_none
  rw [randstrs_of_binprob_false 32767 (fun _ => 1) 0
    (binprob_zero_of_pos 32767 (fun _ => 1) (by decide) (fun _ => Nat.one_pos))]
  decide

/-- Claim C8: for strings of the same length, compstr is the number of indices below
that length at which the two strings hold the same character. -/
theorem compstr_counts_equal_positions (a b : Str) (hlen : a.length = b.length) :
    compstr a b = ((Finset.range a.length).filter (fun i => a[i]? = b[i]?)).card :=
  compstr_eq_card_of_length_eq a b hlen

/-- Witness for claim C8: CAT against CUT. -/
theorem compstr_counts_equal_positions_witness :
    ['C', 'A', 'T'].length = ['C', 'U', 'T'].length ∧
    compstr ['C', 'A', 'T'] ['C', 'U', 'T'] =
      ((Finset.range ['C', 'A', 'T'].length).filter
        (fun i => ['C', 'A', 'T'][i]? = ['C', 'U', 'T'][i]?)).card :=
  ⟨rfl, compstr_counts_equal_positions ['C', 'A', 'T'] ['C', 'U', 'T'] rfl⟩

/-- Claim C9: compstr is symmetric on strings of the same length. -/
theorem compstr_symmetric (a b : Str) (hlen : a.length = b.length) :
    compstr a b = compstr b a :=
  compstr_comm_of_length_eq a b hlen

/-- Witness for claim C9: CAT against CUT. -/
theorem compstr_symmetric_witness :
    ['C', 'A', 'T'].length = ['C', 'U', 'T'].length ∧
    compstr ['C', 'A', 'T'] ['C', 'U', 'T'] = compstr ['C', 'U', 'T'] ['C', 'A', 'T'] :=
  ⟨rfl, compstr_symmetric ['C', 'A', 'T'] ['C', 'U', 'T'] rfl⟩

/-- Claim C10: for a valid index win, cpywin leaves a population of the same size in
which every string is the string that was at index win before the call. -/
theorem cpywin_copies_winner (strs : List Str) (win : Nat) (h : win < strs.length) :
    cpywin strs win = List.replicate strs.length (strs.get ⟨win, h⟩) := by
  rw [cpywin_eq_replicate, List.getD_eq_getElem?_getD, List.getElem?_eq_getElem h]
  rfl

/-- Witness for claim C10: the winner at index 1 of three strings. -/
theorem cpywin_copies_winner_witness :
    1 < [['A', 'D'], ['C', 'B'], ['C', 'X']].length ∧
    cpywin [['A', 'D'], ['C', 'B'], ['C', 'X']] 1 =
      List.replicate [['A', 'D'], ['C', 'B'], ['C', 'X']].length
        ([['A', 'D'], ['C', 'B'], ['C', 'X']].get ⟨1, by decide⟩) :=
  ⟨by decide, cpywin_copies_winner [['A', 'D'], ['C', 'B'], ['C', 'X']] 1 (by decide)⟩

/-! ## Further facts on initialisation, mutation and lengths -/

theorem randstrs_head (RAND_MAX : Nat) (draws : Nat → Nat) (prob : ℚ) (strs : List Str)
    (k : Nat) : (randstrs RAND_MAX draws prob strs k).1[0]? = strs[0]? := by
  apply forLoop_preserves (fun st : List Str × Nat => st.1[0]? = strs[0]?)
  · rfl
  · intro i t hlo _ ht
    simp only at ht ⊢
    rw [List.getElem?_set_ne (by omega), ht]

theorem binprob_one_of_le (RAND_MAX : Nat) (draws : Nat → Nat)
    (h : ∀ j, draws j ≤ RAND_MAX) (j : Nat) : (binprob RAND_MAX draws 1 j).1 = true := by
  have hle : (draws j : ℚ) / (RAND_MAX : ℚ) ≤ 1 := by
    by_cases hR : RAND_MAX = 0
    · simp [hR]
    · have hpos : (0 : ℚ) < (RAND_MAX : ℚ) := by exact_mod_cast Nat.pos_of_ne_zero hR
      rw [div_le_one hpos]
      exact_mod_cast h j
  simp [binprob, hle]

theorem randstr_eq_redrawstr (RAND_MAX : Nat) (draws : Nat → Nat) (prob : ℚ)
    (hb : ∀ j, (binprob RAND_MAX draws prob j).1 = true) (str0 : Str) (k : Nat) :
    randstr RAND_MAX draws prob str0 k = redrawstr RAND_MAX draws str0 k := by
  have hbody : (fun i (st : Str × Nat) =>
      let b := binprob RAND_MAX draws prob st.2
      if b.1 then
        let c := randchar RAND_MAX draws b.2 (charAt st.1 i)
        (st.1.set i c.1, c.2)
      else (st.1, b.2)) =
      (fun i (st : Str × Nat) =>
        let c := randchar RAND_MAX draws (st.2 + 1) (charAt st.1 i)
        (st.1.set i c.1, c.2)) := by
    funext i st
    have h1 := hb st.2
    have h2 : (binprob RAND_MAX draws prob st.2).2 = st.2 + 1 := rfl
    simp only [h1, h2, if_true]
  exact congrArg (fun body => forLoop 0 body str0.length (str0, k)) hbody

theorem mainLoop_lengths (RAND_MAX : Nat) (draws : Nat → Nat) (prob : ℚ) (input : Str)
    (kbhit : Nat → Bool) (L : Nat) (fuel : Nat) :
    ∀ s s1 : Loop, (∀ c, c ∈ s.strs → c.length = L) →
      mainLoop RAND_MAX draws prob input kbhit fuel s = some s1 →
      ∀ c, c ∈ s1.strs → c.length = L := by
  induction fuel with
  | zero =>
    intro s s1 hL h
    simp only [mainLoop, Option.some.injEq] at h
    rw [← h]; exact hL
  | succ n ih =>
    intro s s1 hL h
    simp only [mainLoop] at h
    cases hg : generation RAND_MAX draws prob input (kbhit s.i) s with
    | none => rw [hg] at h; cases h
    | some s2 =>
      rw [hg] at h
      simp only at h
      have hL2 := generation_lengths _ _ _ _ _ s s2 L hL hg
      by_cases he : s2.ended = true
      · simp only [he, if_true, Option.some.injEq] at h
        rw [← h]; exact hL2
      · simp only [he, if_false] at h
        exact ih s2 s1 hL2 h

/-- Claim C11: initstrs fills every slot of the array, so it yields as many strings as
the array has slots, each of length len and made of the filler A only; this holds in
particular for the population with which main enters its loop. -/
theorem initstrs_yields_filler_strings (junk : Nat → Char) (strs : List Str)
    (len numstrs : Nat) (input : Str) :
    (initstrs junk strs len).length = strs.length ∧
    (∀ c, c ∈ initstrs junk strs len → c.length = len ∧ ∀ ch, ch ∈ c → ch = 'A') ∧
    initstrs junk strs len = List.replicate strs.length (List.replicate len 'A') ∧
    (initial junk input numstrs).strs =
      List.replicate numstrs (List.replicate input.length 'A') := by
  refine ⟨?_, ?_, initstrs_eq junk strs len, ?_⟩
  · rw [initstrs_eq]; simp
  · intro c hc
    rw [initstrs_eq] at hc
    rw [List.eq_of_mem_replicate hc]
    exact ⟨by simp, fun ch hch => List.eq_of_mem_replicate hch⟩
  · simp [initial, initstrs_eq]

/-- Claim C12: randstrs keeps the size of the population and leaves the string at index
0 as it is, whatever the probability and the draws. -/
theorem randstrs_keeps_index_zero (RAND_MAX : Nat) (draws : Nat → Nat) (prob : ℚ)
    (strs : List Str) (k : Nat) :
    (randstrs RAND_MAX draws prob strs k).1.length = strs.length ∧
    (randstrs RAND_MAX draws prob strs k).1[0]? = strs[0]? ∧
    (randstrs RAND_MAX draws prob strs k).1.getD 0 [] = strs.getD 0 [] := by
  have h0 := randstrs_head RAND_MAX draws prob strs k
  refine ⟨?_, h0, ?_⟩
  · apply forLoop_preserves (fun st : List Str × Nat => st.1.length = strs.length)
    · rfl
    · intro i t _ _ ht
      simpa using ht
  · rw [List.getD_eq_getElem?_getD, List.getD_eq_getElem?_getD, h0]

/-- Claim C13: with probability 1 and draws rand() that do not exceed RAND_MAX, binprob
always answers true, so randstr calls randchar at every index of its string and
randstrs does so for every string at the indices 1 .. size - 1. -/
theorem every_position_redrawn_at_probability_one (RAND_MAX : Nat) (draws : Nat → Nat)
    (h : ∀ j, draws j ≤ RAND_MAX) :
    (∀ j, (binprob RAND_MAX draws 1 j).1 = true) ∧
    (∀ str0 k, randstr RAND_MAX draws 1 str0 k = redrawstr RAND_MAX draws str0 k) ∧
    (∀ strs k, randstrs RAND_MAX draws 1 strs k =
      forLoop 1 (fun i (st : List Str × Nat) =>
        let r := redrawstr RAND_MAX draws (st.1.getD i []) st.2
        (st.1.set i r.1, r.2)) strs.length (strs, k)) := by
  have hb := binprob_one_of_le RAND_MAX draws h
  have hr := randstr_eq_redrawstr RAND_MAX draws 1 hb
  refine ⟨hb, hr, ?_⟩
  intro strs k
  have hbody : (fun i (st : List Str × Nat) =>
      let r := randstr RAND_MAX draws 1 (st.1.getD i []) st.2
      (st.1.set i r.1, r.2)) =
      (fun i (st : List Str × Nat) =>
        let r := redrawstr RAND_MAX draws (st.1.getD i []) st.2
        (st.1.set i r.1, r.2)) := by
    funext i st
    simp only [hr]
  exact congrArg (fun body => forLoop 1 body strs.length (strs, k)) hbody

/-- Witness for claim C13: RAND_MAX = 32767 and every draw 32767, that is r = 1. -/
theorem every_position_redrawn_at_probability_one_witness :
    (∀ j : Nat, (fun _ => 32767 : Nat → Nat) j ≤ 32767) ∧
    (∀ j, (binprob 32767 (fun _ => 32767) 1 j).1 = true) ∧
    (∀ str0 k, randstr 32767 (fun _ => 32767) 1 str0 k =
      redrawstr 32767 (fun _ => 32767) str0 k) ∧
    (∀ strs k, randstrs 32767 (fun _ => 32767) 1 strs k =
      forLoop 1 (fun i (st : List Str × Nat) =>
        let r := redrawstr 32767 (fun _ => 32767) (st.1.getD i []) st.2
        (st.1.set i r.1, r.2)) strs.length (strs, k)) :=
  ⟨fun _ => Nat.le_refl _,
    every_position_redrawn_at_probability_one 32767 (fun _ => 32767)
      (fun _ => Nat.le_refl _)⟩

/-- Claim C14: every string has the length of the input in every state that the loop of
main reaches and after the mutation of such a state; initstrs produces strings of
length len, randstr keeps the length of its string for every probability and draws,
and cpywin with a valid index keeps a common length. -/
theorem candidate_lengths_invariant (junk : Nat → Char) (RAND_MAX : Nat)
    (draws : Nat → Nat) (kbhit : Nat → Bool) (input : Str) (prob : ℚ)
    (numstrs fuel : Nat) (s : Loop)
    (hrun : main junk RAND_MAX draws kbhit input prob numstrs fuel = some s) :
    (∀ c, c ∈ s.strs → c.length = input.length) ∧
    (∀ c, c ∈ (randstrs RAND_MAX draws prob s.strs s.k).1 → c.length = input.length) ∧
    (∀ (strs : List Str) (len : Nat) c, c ∈ initstrs junk strs len → c.length = len) ∧
    (∀ (p : ℚ) (str0 : Str) (k : Nat),
      (randstr RAND_MAX draws p str0 k).1.length = str0.length) ∧
    (∀ (strs : List Str) (win L : Nat), win < strs.length →
      (∀ c, c ∈ strs → c.length = L) →
      (cpywin strs win).length = strs.length ∧ ∀ c, c ∈ cpywin strs win → c.length = L) := by
  have hs := mainLoop_lengths RAND_MAX draws prob input kbhit input.length fuel
    (initial junk input numstrs) s (initial_lengths junk input numstrs) hrun
  refine ⟨hs, (randstrs_lengths RAND_MAX draws prob s.strs s.k input.length hs).2, ?_,
    fun p str0 k => randstr_length RAND_MAX draws p str0 k, ?_⟩
  · intro strs len c hc
    rw [initstrs_eq] at hc
    rw [List.eq_of_mem_replicate hc]
    simp
  · intro strs win L hw hL
    rw [cpywin_eq_replicate]
    refine ⟨by simp, ?_⟩
    intro c hc
    rw [List.eq_of_mem_replicate hc]
    exact hL _ (getD_mem strs win [] hw)

/-- Witness for claim C14: the run on input B with probability 1, two strings and every
draw 0, which leaves the loop in generation 0. -/
theorem candidate_lengths_invariant_witness :
    main (fun _ => 'x') 32767 (fun _ => 0) (fun _ => false) ['B'] 1 2 3 =
      some ⟨[['B'], ['B']], 1, 2, [Line.report 0 ['B']], true⟩ ∧
    (∀ c, c ∈ [['B'], ['B']] → c.length = ['B'].length) ∧
    (∀ c, c ∈ (randstrs 32767 (fun _ => 0) 1 [['B'], ['B']] 2).1 → c.length = ['B'].length) ∧
    (∀ (strs : List Str) (len : Nat) c,
      c ∈ initstrs (fun _ => 'x') strs len → c.length = len) ∧
    (∀ (p : ℚ) (str0 : Str) (k : Nat),
      (randstr 32767 (fun _ => 0) p str0 k).1.length = str0.length) ∧
    (∀ (strs : List Str) (win L : Nat), win < strs.length →
      (∀ c, c ∈ strs → c.length = L) →
      (cpywin strs win).length = strs.length ∧ ∀ c, c ∈ cpywin strs win → c.length = L) :=
  have h : main (fun _ => 'x') 32767 (fun _ => 0) (fun _ => false) ['B'] 1 2 3 =
      some ⟨[['B'], ['B']], 1, 2, [Line.report 0 ['B']], true⟩ := by
    simp [main, mainLoop, generation, initial, initstrs_eq, randstrs, compstrs, cpywin,
      compstr, randstr, forLoop, binprob, randchar, cumprob, cumprobLoop, charAt]
  ⟨h, candidate_lengths_invariant (fun _ => 'x') 32767 (fun _ => 0) (fun _ => false)
    ['B'] 1 2 3 ⟨[['B'], ['B']], 1, 2, [Line.report 0 ['B']], true⟩ h⟩

/-- Claim C16: for strings of the same length L, compstr is at most L, and it equals L
exactly when the strings are equal; so the test that main makes on the selected
string holds exactly when that string equals the input. -/
theorem compstr_full_score_iff_equal (a b : Str) (hlen : a.length = b.length) :
    compstr a b ≤ a.length ∧ (compstr a b = a.length ↔ a = b) ∧
    (decide (compstr a b = b.length) = true ↔ a = b) := by
  have hiff : compstr a b = a.length ↔ a = b :=
    ⟨eq_of_compstr_eq_length a b hlen, fun e => by rw [e]; exact compstr_self b⟩
  refine ⟨compstrUpTo_le a b a.length, hiff, ?_⟩
  rw [decide_eq_true_eq, ← hlen]
  exact hiff

/-- Witness for claim C16: CAT against CUT scores 2 out of 3. -/
theorem compstr_full_score_iff_equal_witness :
    ['C', 'A', 'T'].length = ['C', 'U', 'T'].length ∧
    compstr ['C', 'A', 'T'] ['C', 'U', 'T'] = 2 ∧
    compstr ['C', 'A', 'T'] ['C', 'U', 'T'] ≤ ['C', 'A', 'T'].length ∧
    (compstr ['C', 'A', 'T'] ['C', 'U', 'T'] = ['C', 'A', 'T'].length ↔
      ['C', 'A', 'T'] = ['C', 'U', 'T']) ∧
    (decide (compstr ['C', 'A', 'T'] ['C', 'U', 'T'] = ['C', 'U', 'T'].length) = true ↔
      ['C', 'A', 'T'] = ['C', 'U', 'T']) :=
  ⟨rfl, by decide, compstr_full_score_iff_equal ['C', 'A', 'T'] ['C', 'U', 'T'] rfl⟩

/-! ## The cumulative walk of cumprob -/

theorem cumprobLoop_unfold (test cum : ℚ) (i : Nat) :
    cumprobLoop test cum i =
      if cum + 1 / 26 ≥ test then i + 1 else cumprobLoop test (cum + 1 / 26) (i + 1) := by
  rw [cumprobLoop]

theorem walk_stops_iff (test : ℚ) (j : Nat) :
    (j : ℚ) / 26 + 1 / 26 ≥ test ↔ Nat.ceil (26 * test) ≤ j + 1 := by
  rw [Nat.ceil_le]
  push_cast
  constructor
  · intro h; linarith
  · intro h
    have : test ≤ ((j : ℚ) + 1) / 26 := by
      rw [le_div_iff₀ (by norm_num)]
      linarith
    have e : (j : ℚ) / 26 + 1 / 26 = ((j : ℚ) + 1) / 26 := by ring
    rw [ge_iff_le, e]
    exact this

theorem walk_advance (j : Nat) : (j : ℚ) / 26 + 1 / 26 = ((j + 1 : Nat) : ℚ) / 26 := by
  push_cast
  ring

/-- Closed form of the walk resumed after j steps. -/
theorem cumprobLoop_closed (test : ℚ) (d : Nat) :
    ∀ j, Nat.ceil (26 * test) - j ≤ d →
      cumprobLoop test ((j : ℚ) / 26) (j + 1) = 1 + max (j + 1) (Nat.ceil (26 * test)) := by
  induction d with
  | zero =>
    intro j hd
    rw [cumprobLoop_unfold]
    have hstop : (j : ℚ) / 26 + 1 / 26 ≥ test := (walk_stops_iff test j).mpr (by omega)
    rw [if_pos hstop]
    omega
  | succ d ih =>
    intro j hd
    rw [cumprobLoop_unfold]
    by_cases hstop : (j : ℚ) / 26 + 1 / 26 ≥ test
    · rw [if_pos hstop]
      have := (walk_stops_iff test j).mp hstop
      omega
    · rw [if_neg hstop, walk_advance, ih (j + 1) (by omega)]
      have : ¬ Nat.ceil (26 * test) ≤ j + 1 := fun h => hstop ((walk_stops_iff test j).mpr h)
      omega

theorem cumprobLoop_start (test : ℚ) :
    cumprobLoop test 0 1 = 1 + max 1 (Nat.ceil (26 * test)) := by
  have h := cumprobLoop_closed test (Nat.ceil (26 * test)) 0 (by omega)
  simpa using h

/-- The walk limited to fuel iterations reaches the same result when fuel suffices. -/
theorem cumprobLoopFuel_closed (test : ℚ) (fuel : Nat) :
    ∀ j, Nat.ceil (26 * test) - j ≤ fuel → 1 ≤ fuel →
      cumprobLoopFuel fuel test ((j : ℚ) / 26) (j + 1) =
        some (1 + max (j + 1) (Nat.ceil (26 * test))) := by
  induction fuel with
  | zero => intro j _ h1; omega
  | succ n ih =>
    intro j hd _
    simp only [cumprobLoopFuel]
    by_cases hstop : (j : ℚ) / 26 + 1 / 26 ≥ test
    · rw [if_pos hstop]
      have := (walk_stops_iff test j).mp hstop
      congr 1
      omega
    · have hc : ¬ Nat.ceil (26 * test) ≤ j + 1 :=
        fun h => hstop ((walk_stops_iff test j).mpr h)
      rw [if_neg hstop, walk_advance, ih (j + 1) (by omega) (by omega)]
      congr 1
      omega

theorem ceil_le_of_le_one (test : ℚ) (h1 : test ≤ 1) : Nat.ceil (26 * test) ≤ 26 := by
  rw [Nat.ceil_le]
  push_cast
  linarith

/-- The switch of randchar on a letter number of at least 2 never yields A from a
character that is not A. -/
theorem randchar_ne_filler (RAND_MAX : Nat) (draws : Nat → Nat) (k : Nat) (ch : Char)
    (hch : ch ≠ 'A') : (randchar RAND_MAX draws k ch).1 ≠ 'A' := by
  have h2 : 2 ≤ (cumprob RAND_MAX draws k).1 := by
    simp only [cumprob, cumprobLoop_start]
    omega
  simp only [randchar]
  generalize (cumprob RAND_MAX draws k).1 = n at h2
  split <;> first | omega | decide | exact hch

/-- The switch of randchar on a letter number from 2 to 27 writes the symbol of that
number, which is one of B to Z or the space. -/
theorem randchar_of_range (RAND_MAX : Nat) (draws : Nat → Nat) (k : Nat) (ch : Char)
    (h2 : 2 ≤ (cumprob RAND_MAX draws k).1) (h27 : (cumprob RAND_MAX draws k).1 ≤ 27) :
    (randchar RAND_MAX draws k ch).1 ∈ alphabetOrder.drop 1 ∧
      (randchar RAND_MAX draws k ch).1 ≠ 'A' := by
  simp only [randchar]
  generalize (cumprob RAND_MAX draws k).1 = n at h2 h27
  interval_cases n <;> simp [alphabetOrder]

/-- Claim C17: for every test of at most 1, hence for every draw in [0,1], the loop of
cumprob stops within 26 iterations and returns 1 + max(1, ceil(26 * test)), a number
from 2 to 27; so randchar writes one of B to Z or the space, and never A. -/
theorem cumprob_walk_result (test : ℚ) (h1 : test ≤ 1) :
    cumprobLoopFuel 26 test 0 1 = some (cumprobLoop test 0 1) ∧
    cumprobLoop test 0 1 = 1 + max 1 (Nat.ceil (26 * test)) ∧
    2 ≤ cumprobLoop test 0 1 ∧ cumprobLoop test 0 1 ≤ 27 ∧
    (∀ (RAND_MAX : Nat) (draws : Nat → Nat) (k : Nat) (ch : Char),
      (draws k : ℚ) / (RAND_MAX : ℚ) = test →
      (randchar RAND_MAX draws k ch).1 ∈ alphabetOrder.drop 1 ∧
        (randchar RAND_MAX draws k ch).1 ≠ 'A') := by
  have hc := ceil_le_of_le_one test h1
  have hs := cumprobLoop_start test
  have hf := cumprobLoopFuel_closed test 26 0 (by omega) (by omega)
  simp only [Nat.cast_zero, zero_div, Nat.zero_add] at hf
  refine ⟨by rw [hf, hs], hs, by omega, by omega, ?_⟩
  intro RAND_MAX draws k ch ht
  have hcp : (cumprob RAND_MAX draws k).1 = cumprobLoop test 0 1 := by
    simp only [cumprob, ht]
  exact randchar_of_range RAND_MAX draws k ch (by omega) (by omega)

/-- Witness for claim C17: the draw 1 out of 2, that is test = 1 / 2, gives the letter
number 14, the letter N. -/
theorem cumprob_walk_result_witness :
    ((1 : ℚ) / 2 ≤ 1) ∧ cumprobLoop (1 / 2) 0 1 = 14 ∧
    randchar 2 (fun _ => 1) 0 'A' = ('N', 1) ∧
    cumprobLoopFuel 26 (1 / 2) 0 1 = some (cumprobLoop (1 / 2) 0 1) ∧
    cumprobLoop (1 / 2) 0 1 = 1 + max 1 (Nat.ceil (26 * ((1 : ℚ) / 2))) ∧
    2 ≤ cumprobLoop (1 / 2) 0 1 ∧ cumprobLoop (1 / 2) 0 1 ≤ 27 ∧
    (∀ (RAND_MAX : Nat) (draws : Nat → Nat) (k : Nat) (ch : Char),
      (draws k : ℚ) / (RAND_MAX : ℚ) = 1 / 2 →
      (randchar RAND_MAX draws k ch).1 ∈ alphabetOrder.drop 1 ∧
        (randchar RAND_MAX draws k ch).1 ≠ 'A') :=
  have hceil : Nat.ceil (26 * ((1 : ℚ) / 2)) = 13 := by
    have e : (26 : ℚ) * (1 / 2) = ((13 : Nat) : ℚ) := by norm_num
    rw [e, Nat.ceil_natCast]
  have h14 : cumprobLoop (1 / 2) 0 1 = 14 := by
    rw [cumprobLoop_start, hceil]; rfl
  have hN : randchar 2 (fun _ => 1) 0 'A' = ('N', 1) := by
    have e : (((1 : Nat) : ℚ) / ((2 : Nat) : ℚ)) = 1 / 2 := by norm_num
    simp only [randchar, cumprob, e, h14]
  ⟨by norm_num, h14, hN, cumprob_walk_result (1 / 2) (by norm_num)⟩

/-! ## Successive generations -/

theorem randstrs_length (RAND_MAX : Nat) (draws : Nat → Nat) (prob : ℚ) (strs : List Str)
    (k : Nat) : (randstrs RAND_MAX draws prob strs k).1.length = strs.length := by
  apply forLoop_preserves (fun st : List Str × Nat => st.1.length = strs.length)
  · rfl
  · intro i t _ _ ht
    simpa using ht

theorem randstrs_getD_zero (RAND_MAX : Nat) (draws : Nat → Nat) (prob : ℚ)
    (strs : List Str) (k : Nat) :
    (randstrs RAND_MAX draws prob strs k).1.getD 0 [] = strs.getD 0 [] := by
  rw [List.getD_eq_getElem?_getD, List.getD_eq_getElem?_getD, randstrs_head]

theorem reportScores_append (input : Str) (a b : List Line) :
    reportScores input (a ++ b) = reportScores input a ++ reportScores input b := by
  induction a with
  | nil => rfl
  | cons x rest ih =>
    cases x with
    | report i s => simp [reportScores, ih]
    | userEscape => simp [reportScores, ih]

/-- What one generation does to the population and to the reported scores, in terms of
the selected index win and of the selected string. -/
theorem generation_facts (RAND_MAX : Nat) (draws : Nat → Nat) (prob : ℚ) (input : Str)
    (kbhit : Bool) (s s1 : Loop) (win : Nat)
    (hwin : compstrs (randstrs RAND_MAX draws prob s.strs s.k).1 input = some win)
    (hg : generation RAND_MAX draws prob input kbhit s = some s1) :
    win < s.strs.length ∧
    s1.strs = List.replicate s.strs.length
      ((randstrs RAND_MAX draws prob s.strs s.k).1.getD win []) ∧
    s1.strs.getD 0 [] = (randstrs RAND_MAX draws prob s.strs s.k).1.getD win [] ∧
    reportScores input s1.out = reportScores input s.out ++
      (if win ≠ 0 then
        [compstr ((randstrs RAND_MAX draws prob s.strs s.k).1.getD win []) input]
      else []) := by
  rw [generation_of_compstrs_some RAND_MAX draws prob input kbhit s win hwin] at hg
  have hw := (compstrs_some_spec _ _ _ hwin).1
  rw [randstrs_length] at hw
  cases hg
  have hrep : cpywin (randstrs RAND_MAX draws prob s.strs s.k).1 win =
      List.replicate s.strs.length
        ((randstrs RAND_MAX draws prob s.strs s.k).1.getD win []) := by
    rw [cpywin_eq_replicate, randstrs_length]
  refine ⟨hw, hrep, ?_, ?_⟩
  · simp only [hrep]
    rw [List.getD_eq_getElem?_getD, List.getElem?_replicate]
    have : 0 < s.strs.length := by omega
    simp [this]
  · cases kbhit <;> by_cases h0 : win = 0 <;>
      simp [h0, reportScores_append, reportScores]

/-- A strictly increasing list of numbers from 1 to L has at most L members. -/
theorem length_le_of_pairwise_lt (l : List Nat) (L : Nat) (hp : l.Pairwise (· < ·))
    (hb : ∀ x, x ∈ l → 1 ≤ x ∧ x ≤ L) : l.length ≤ L := by
  have hnd : l.Nodup := hp.imp (fun h => Nat.ne_of_lt h)
  have hsub : l.toFinset ⊆ Finset.Icc 1 L := by
    intro x hx
    rw [List.mem_toFinset] at hx
    exact Finset.mem_Icc.mpr (hb x hx)
  have hcard := Finset.card_le_card hsub
  rw [List.toFinset_card_of_nodup hnd, Nat.card_Icc] at hcard
  omega

/-- Claim C18: after a generation whose selected index has a value, index 0 holds the
selected string, the mutation of the next generation leaves it there, the next
selection has a value as well, and the string it selects scores at least as much. -/
theorem winner_score_never_decreases (RAND_MAX : Nat) (draws : Nat → Nat) (prob : ℚ)
    (input : Str) (kbhit kbhit2 : Bool) (s s1 : Loop) (win : Nat)
    (hwin : compstrs (randstrs RAND_MAX draws prob s.strs s.k).1 input = some win)
    (hg : generation RAND_MAX draws prob input kbhit s = some s1) :
    s1.strs.getD 0 [] = (randstrs RAND_MAX draws prob s.strs s.k).1.getD win [] ∧
    (randstrs RAND_MAX draws prob s1.strs s1.k).1.getD 0 [] =
      (randstrs RAND_MAX draws prob s.strs s.k).1.getD win [] ∧
    ∃ win2 s2, compstrs (randstrs RAND_MAX draws prob s1.strs s1.k).1 input = some win2 ∧
      generation RAND_MAX draws prob input kbhit2 s1 = some s2 ∧
      compstr ((randstrs RAND_MAX draws prob s.strs s.k).1.getD win []) input ≤
        compstr ((randstrs RAND_MAX draws prob s1.strs s1.k).1.getD win2 []) input := by
  obtain ⟨hw, hrep, h0, _⟩ := generation_facts RAND_MAX draws prob input kbhit s s1 win hwin hg
  have hpos := (compstrs_some_spec _ _ _ hwin).2.1
  have h0r : (randstrs RAND_MAX draws prob s1.strs s1.k).1.getD 0 [] =
      (randstrs RAND_MAX draws prob s.strs s.k).1.getD win [] := by
    rw [randstrs_getD_zero, h0]
  have hlen1 : 0 < (randstrs RAND_MAX draws prob s1.strs s1.k).1.length := by
    rw [randstrs_length, hrep, List.length_replicate]; omega
  refine ⟨h0, h0r, ?_⟩
  cases hc : compstrs (randstrs RAND_MAX draws prob s1.strs s1.k).1 input with
  | none =>
    have hz := (compstrs_eq_none_iff _ _).mp hc 0 hlen1
    rw [h0r] at hz
    omega
  | some win2 =>
    refine ⟨win2, _, rfl,
      generation_of_compstrs_some RAND_MAX draws prob input kbhit2 s1 win2 hc, ?_⟩
    have hmax := (compstrs_some_spec _ _ _ hc).2.2.1 0 hlen1
    rw [h0r] at hmax
    exact hmax

/-- Witness for claim C18: the population AA, AB with input AB and no mutation; index 1
is selected with the score 2, and the next generation selects a string that scores 2. -/
theorem winner_score_never_decreases_witness :
    compstrs (randstrs 32767 (fun _ => 1) 0 [['A', 'A'], ['A', 'B']] 0).1 ['A', 'B']
      = some 1 ∧
    generation 32767 (fun _ => 1) 0 ['A', 'B'] false
      ⟨[['A', 'A'], ['A', 'B']], 4, 0, [], false⟩ =
      some ⟨[['A', 'B'], ['A', 'B']], 5,
        (randstrs 32767 (fun _ => 1) 0 [['A', 'A'], ['A', 'B']] 0).2,
        [Line.report 4 ['A', 'B']], true⟩ ∧
    [['A', 'B'], ['A', 'B']].getD 0 [] =
      (randstrs 32767 (fun _ => 1) 0 [['A', 'A'], ['A', 'B']] 0).1.getD 1 [] ∧
    (randstrs 32767 (fun _ => 1) 0 [['A', 'B'], ['A', 'B']]
        (randstrs 32767 (fun _ => 1) 0 [['A', 'A'], ['A', 'B']] 0).2).1.getD 0 [] =
      (randstrs 32767 (fun _ => 1) 0 [['A', 'A'], ['A', 'B']] 0).1.getD 1 [] ∧
    ∃ win2 s2,
      compstrs (randstrs 32767 (fun _ => 1) 0 [['A', 'B'], ['A', 'B']]
        (randstrs 32767 (fun _ => 1) 0 [['A', 'A'], ['A', 'B']] 0).2).1 ['A', 'B']
        = some win2 ∧
      generation 32767 (fun _ => 1) 0 ['A', 'B'] false
        ⟨[['A', 'B'], ['A', 'B']], 5,
          (randstrs 32767 (fun _ => 1) 0 [['A', 'A'], ['A', 'B']] 0).2,
          [Line.report 4 ['A', 'B']], true⟩ = some s2 ∧
      compstr ((randstrs 32767 (fun _ => 1) 0 [['A', 'A'], ['A', 'B']] 0).1.getD 1 [])
          ['A', 'B'] ≤
        compstr ((randstrs 32767 (fun _ => 1) 0 [['A', 'B'], ['A', 'B']]
          (randstrs 32767 (fun _ => 1) 0 [['A', 'A'], ['A', 'B']] 0).2).1.getD win2 [])
          ['A', 'B'] :=
  have hb : ∀ j, (binprob 32767 (fun _ => 1) 0 j).1 = false :=
    binprob_zero_of_pos 32767 (fun _ => 1) (by decide) (fun _ => Nat.one_pos)
  have hr := randstrs_of_binprob_false 32767 (fun _ => 1) 0 hb [['A', 'A'], ['A', 'B']] 0
  have h : compstrs (randstrs 32767 (fun _ => 1) 0 [['A', 'A'], ['A', 'B']] 0).1 ['A', 'B']
      = some 1 := by
    rw [hr]; simp [compstrs, compstr, forLoop, charAt]
  have hg : generation 32767 (fun _ => 1) 0 ['A', 'B'] false
      ⟨[['A', 'A'], ['A', 'B']], 4, 0, [], false⟩ =
      some ⟨[['A', 'B'], ['A', 'B']], 5,
        (randstrs 32767 (fun _ => 1) 0 [['A', 'A'], ['A', 'B']] 0).2,
        [Line.report 4 ['A', 'B']], true⟩ := by
    rw [generation_of_compstrs_some 32767 (fun _ => 1) 0 ['A', 'B'] false
      ⟨[['A', 'A'], ['A', 'B']], 4, 0, [], false⟩ 1 h]
    simp only [cpywin_eq_replicate, hr]
    simp [compstr, forLoop, charAt]
  ⟨h, hg, winner_score_never_decreases 32767 (fun _ => 1) 0 ['A', 'B'] false false
    ⟨[['A', 'A'], ['A', 'B']], 4, 0, [], false⟩
    ⟨[['A', 'B'], ['A', 'B']], 5,
      (randstrs 32767 (fun _ => 1) 0 [['A', 'A'], ['A', 'B']] 0).2,
      [Line.report 4 ['A', 'B']], true⟩ 1 h hg⟩

/-! ## The scores of the reported strings -/

/-- One generation keeps the reported scores strictly increasing, at least 1 and at
most the score of the string at index 0. -/
theorem generation_keeps_reports (RAND_MAX : Nat) (draws : Nat → Nat) (prob : ℚ)
    (input : Str) (kbhit : Bool) (s s1 : Loop)
    (hp : (reportScores input s.out).Pairwise (· < ·))
    (hb : ∀ x, x ∈ reportScores input s.out →
      1 ≤ x ∧ x ≤ compstr (s.strs.getD 0 []) input)
    (hg : generation RAND_MAX draws prob input kbhit s = some s1) :
    (reportScores input s1.out).Pairwise (· < ·) ∧
    ∀ x, x ∈ reportScores input s1.out → 1 ≤ x ∧ x ≤ compstr (s1.strs.getD 0 []) input := by
  cases hc : compstrs (randstrs RAND_MAX draws prob s.strs s.k).1 input with
  | none => rw [generation_of_compstrs_none _ _ _ _ _ _ hc] at hg; cases hg
  | some win =>
    obtain ⟨_, _, h0, hout⟩ :=
      generation_facts RAND_MAX draws prob input kbhit s s1 win hc hg
    obtain ⟨_, hpos, _, hlow⟩ := compstrs_some_spec _ _ _ hc
    rw [hout, h0]
    by_cases hz : win = 0
    · simp only [hz, ne_eq, not_true_eq_false, if_false, List.append_nil]
      refine ⟨hp, ?_⟩
      intro x hx
      have := hb x hx
      rw [← randstrs_getD_zero RAND_MAX draws prob s.strs s.k] at this
      exact this
    · have hlt := hlow 0 (Nat.pos_of_ne_zero hz)
      rw [randstrs_getD_zero] at hlt
      simp only [ne_eq, hz, not_false_eq_true, if_true]
      refine ⟨?_, ?_⟩
      · rw [List.pairwise_append]
        refine ⟨hp, List.pairwise_singleton _ _, ?_⟩
        intro x hx y hy
        rw [List.mem_singleton] at hy
        have := (hb x hx).2
        omega
      · intro x hx
        rw [List.mem_append, List.mem_singleton] at hx
        rcases hx with hx | hx
        · have := hb x hx
          omega
        · omega

theorem mainLoop_keeps_reports (RAND_MAX : Nat) (draws : Nat → Nat) (prob : ℚ)
    (input : Str) (kbhit : Nat → Bool) (fuel : Nat) :
    ∀ s s1 : Loop, (reportScores input s.out).Pairwise (· < ·) →
      (∀ x, x ∈ reportScores input s.out →
        1 ≤ x ∧ x ≤ compstr (s.strs.getD 0 []) input) →
      mainLoop RAND_MAX draws prob input kbhit fuel s = some s1 →
      (reportScores input s1.out).Pairwise (· < ·) ∧
      ∀ x, x ∈ reportScores input s1.out →
        1 ≤ x ∧ x ≤ compstr (s1.strs.getD 0 []) input := by
  induction fuel with
  | zero =>
    intro s s1 hp hb h
    simp only [mainLoop, Option.some.injEq] at h
    rw [← h]; exact ⟨hp, hb⟩
  | succ n ih =>
    intro s s1 hp hb h
    simp only [mainLoop] at h
    cases hg : generation RAND_MAX draws prob input (kbhit s.i) s with
    | none => rw [hg] at h; cases h
    | some s2 =>
      rw [hg] at h
      simp only at h
      obtain ⟨hp2, hb2⟩ := generation_keeps_reports _ _ _ _ _ s s2 hp hb hg
      by_cases he : s2.ended = true
      · simp only [he, if_true, Option.some.injEq] at h
        rw [← h]; exact ⟨hp2, hb2⟩
      · simp only [he, if_false] at h
        exact ih s2 s1 hp2 hb2 h

theorem getD_zero_length_le (strs : List Str) (L : Nat)
    (hL : ∀ c, c ∈ strs → c.length = L) : (strs.getD 0 []).length ≤ L := by
  cases strs with
  | nil => simp
  | cons c rest =>
    have := hL c (List.mem_cons_self c rest)
    simp [this]

/-- Claim C19: a generation whose selected index has a value either prints no report,
or prints the report of a string that scores strictly more than the string at index
0; in every run of main the scores of the reported strings strictly increase, and
there are at most as many reports as the input has characters. -/
theorem reports_strictly_increase (junk : Nat → Char) (RAND_MAX : Nat)
    (draws : Nat → Nat) (kbhit : Nat → Bool) (input : Str) (prob : ℚ)
    (numstrs fuel : Nat) (s : Loop)
    (hrun : main junk RAND_MAX draws kbhit input prob numstrs fuel = some s) :
    (reportScores input s.out).Pairwise (· < ·) ∧
    (reportScores input s.out).length ≤ input.length ∧
    (∀ (t t1 : Loop) (kb : Bool) (win : Nat),
      compstrs (randstrs RAND_MAX draws prob t.strs t.k).1 input = some win →
      generation RAND_MAX draws prob input kb t = some t1 →
      (win = 0 ∧ reportScores input t1.out = reportScores input t.out) ∨
      (win ≠ 0 ∧
        reportScores input t1.out = reportScores input t.out ++
          [compstr ((randstrs RAND_MAX draws prob t.strs t.k).1.getD win []) input] ∧
        compstr (t.strs.getD 0 []) input <
          compstr ((randstrs RAND_MAX draws prob t.strs t.k).1.getD win []) input)) := by
  have hinit : (reportScores input (initial junk input numstrs).out).Pairwise (· < ·) := by
    simp [initial, reportScores]
  have hinitb : ∀ x, x ∈ reportScores input (initial junk input numstrs).out →
      1 ≤ x ∧ x ≤ compstr ((initial junk input numstrs).strs.getD 0 []) input := by
    intro x hx
    simp [initial, reportScores] at hx
  obtain ⟨hp, hb⟩ := mainLoop_keeps_reports RAND_MAX draws prob input kbhit fuel
    (initial junk input numstrs) s hinit hinitb hrun
  have hL := mainLoop_lengths RAND_MAX draws prob input kbhit input.length fuel
    (initial junk input numstrs) s (initial_lengths junk input numstrs) hrun
  refine ⟨hp, ?_, ?_⟩
  · apply length_le_of_pairwise_lt _ _ hp
    intro x hx
    have h1 := hb x hx
    have h2 := compstrUpTo_le (s.strs.getD 0 []) input (s.strs.getD 0 []).length
    rw [← compstr_eq_upTo] at h2
    have h3 := getD_zero_length_le s.strs input.length hL
    omega
  · intro t t1 kb win hwin hg
    obtain ⟨_, _, _, hout⟩ := generation_facts RAND_MAX draws prob input kb t t1 win hwin hg
    by_cases hz : win = 0
    · left
      refine ⟨hz, ?_⟩
      rw [hout]; simp [hz]
    · right
      refine ⟨hz, ?_, ?_⟩
      · rw [hout]; simp [hz]
      · have hlt := (compstrs_some_spec _ _ _ hwin).2.2.2 0 (Nat.pos_of_ne_zero hz)
        rw [randstrs_getD_zero] at hlt
        exact hlt

/-- Witness for claim C19: the run on input B with probability 1, two strings and every
draw 0, which prints one report, of score 1. -/
theorem reports_strictly_increase_witness :
    main (fun _ => 'x') 32767 (fun _ => 0) (fun _ => false) ['B'] 1 2 3 =
      some ⟨[['B'], ['B']], 1, 2, [Line.report 0 ['B']], true⟩ ∧
    reportScores ['B'] [Line.report 0 ['B']] = [1] ∧
    (reportScores ['B'] [Line.report 0 ['B']]).Pairwise (· < ·) ∧
    (reportScores ['B'] [Line.report 0 ['B']]).length ≤ ['B'].length ∧
    (∀ (t t1 : Loop) (kb : Bool) (win : Nat),
      compstrs (randstrs 32767 (fun _ => 0) 1 t.strs t.k).1 ['B'] = some win →
      generation 32767 (fun _ => 0) 1 ['B'] kb t = some t1 →
      (win = 0 ∧ reportScores ['B'] t1.out = reportScores ['B'] t.out) ∨
      (win ≠ 0 ∧
        reportScores ['B'] t1.out = reportScores ['B'] t.out ++
          [compstr ((randstrs 32767 (fun _ => 0) 1 t.strs t.k).1.getD win []) ['B']] ∧
        compstr (t.strs.getD 0 []) ['B'] <
          compstr ((randstrs 32767 (fun _ => 0) 1 t.strs t.k).1.getD win []) ['B'])) :=
  have h : main (fun _ => 'x') 32767 (fun _ => 0) (fun _ => false) ['B'] 1 2 3 =
      some ⟨[['B'], ['B']], 1, 2, [Line.report 0 ['B']], true⟩ := by
    simp [main, mainLoop, generation, initial, initstrs_eq, randstrs, compstrs, cpywin,
      compstr, randstr, forLoop, binprob, randchar, cumprob, cumprobLoop, charAt]
  ⟨h, by decide, reports_strictly_increase (fun _ => 'x') 32767 (fun _ => 0)
    (fun _ => false) ['B'] 1 2 3 ⟨[['B'], ['B']], 1, 2, [Line.report 0 ['B']], true⟩ h⟩

/-! ## A position that has lost the filler -/

theorem charAt_set (l : Str) (i p : Nat) (x : Char) :
    charAt (l.set i x) p = if i = p ∧ i < l.length then x else charAt l p := by
  simp only [charAt, List.getD_eq_getElem?_getD, List.getElem?_set]
  by_cases hip : i = p
  · subst hip
    by_cases hl : i < l.length
    · simp [hl]
    · simp [hl, List.getElem?_eq_none (Nat.le_of_not_lt hl)]
  · simp [hip]

theorem randstr_keeps_non_filler (RAND_MAX : Nat) (draws : Nat → Nat) (prob : ℚ)
    (str0 : Str) (k p : Nat) (h : charAt str0 p ≠ 'A') :
    charAt (randstr RAND_MAX draws prob str0 k).1 p ≠ 'A' := by
  apply forLoop_preserves (fun st : Str × Nat => charAt st.1 p ≠ 'A')
  · exact h
  · intro i t _ _ ht
    simp only at ht ⊢
    split
    · simp only [charAt_set]
      split
      · rename_i hip
        rw [hip.1]
        exact randchar_ne_filler _ _ _ _ ht
      · exact ht
    · exact ht

theorem randstrs_keeps_non_filler (RAND_MAX : Nat) (draws : Nat → Nat) (prob : ℚ)
    (strs : List Str) (k p : Nat) (h : ∀ c, c ∈ strs → charAt c p ≠ 'A') :
    ∀ c, c ∈ (randstrs RAND_MAX draws prob strs k).1 → charAt c p ≠ 'A' := by
  have key : (randstrs RAND_MAX draws prob strs k).1.length = strs.length ∧
      ∀ c, c ∈ (randstrs RAND_MAX draws prob strs k).1 → charAt c p ≠ 'A' := by
    apply forLoop_preserves
      (fun st : List Str × Nat =>
        st.1.length = strs.length ∧ ∀ c, c ∈ st.1 → charAt c p ≠ 'A')
    · exact ⟨rfl, h⟩
    · intro i t _ hi ht
      obtain ⟨hlen, hall⟩ := ht
      refine ⟨by simpa using hlen, ?_⟩
      intro c hc
      rcases List.mem_or_eq_of_mem_set hc with hmem | heq
      · exact hall c hmem
      · rw [heq]
        exact randstr_keeps_non_filler _ _ _ _ _ _ (hall _ (getD_mem t.1 i [] (by omega)))
  exact key.2

/-- When the input has the filler at a position where no string of the population has
it any more, a generation without keypress neither sets the flag end nor brings the
filler back. -/
theorem generation_without_filler (RAND_MAX : Nat) (draws : Nat → Nat) (prob : ℚ)
    (input : Str) (p : Nat) (s s1 : Loop) (hin : charAt input p = 'A')
    (hL : ∀ c, c ∈ s.strs → c.length = input.length)
    (hA : ∀ c, c ∈ s.strs → charAt c p ≠ 'A')
    (hg : generation RAND_MAX draws prob input false s = some s1) :
    s1.ended = false ∧ (∀ c, c ∈ s1.strs → charAt c p ≠ 'A') := by
  cases hc : compstrs (randstrs RAND_MAX draws prob s.strs s.k).1 input with
  | none => rw [generation_of_compstrs_none _ _ _ _ _ _ hc] at hg; cases hg
  | some win =>
    obtain ⟨hw, hrep, _, _⟩ := generation_facts RAND_MAX draws prob input false s s1 win hc hg
    have hmem : (randstrs RAND_MAX draws prob s.strs s.k).1.getD win [] ∈
        (randstrs RAND_MAX draws prob s.strs s.k).1 :=
      getD_mem _ win [] (by rw [randstrs_length]; exact hw)
    have hwA := randstrs_keeps_non_filler RAND_MAX draws prob s.strs s.k p hA _ hmem
    have hwL := (randstrs_lengths RAND_MAX draws prob s.strs s.k input.length hL).2 _ hmem
    constructor
    · rw [generation_of_compstrs_some RAND_MAX draws prob input false s win hc] at hg
      cases hg
      by_cases h0 : win = 0
      · simp [h0]
      · simp only [Bool.false_eq_true, if_false, ne_eq, h0, not_false_eq_true, if_true,
          decide_eq_false_iff_not]
        intro hfull
        have heq := eq_of_compstr_eq_length _ input hwL (by rw [hfull, hwL])
        rw [heq] at hwA
        exact hwA hin
    · intro c hcm
      rw [hrep] at hcm
      rw [List.eq_of_mem_replicate hcm]
      exact hwA

theorem mainLoop_without_filler (RAND_MAX : Nat) (draws : Nat → Nat) (prob : ℚ)
    (input : Str) (p : Nat) (hin : charAt input p = 'A') (fuel : Nat) :
    ∀ s s1 : Loop, s.ended = false → (∀ c, c ∈ s.strs → c.length = input.length) →
      (∀ c, c ∈ s.strs → charAt c p ≠ 'A') →
      mainLoop RAND_MAX draws prob input (fun _ => false) fuel s = some s1 →
      s1.ended = false ∧ (∀ c, c ∈ s1.strs → charAt c p ≠ 'A') := by
  induction fuel with
  | zero =>
    intro s s1 he _ hA h
    simp only [mainLoop, Option.some.injEq] at h
    rw [← h]; exact ⟨he, hA⟩
  | succ n ih =>
    intro s s1 _ hL hA h
    simp only [mainLoop] at h
    cases hg : generation RAND_MAX draws prob input false s with
    | none => rw [hg] at h; cases h
    | some s2 =>
      rw [hg] at h
      simp only at h
      obtain ⟨he2, hA2⟩ := generation_without_filler _ _ _ _ p s s2 hin hL hA hg
      simp only [he2, Bool.false_eq_true, if_false] at h
      exact ih s2 s1 he2 (generation_lengths _ _ _ _ _ s s2 _ hL hg) hA2 h

/-- Variant of randstr_of_binprob_false for draws that answer false from k on. -/
theorem randstr_of_binprob_false_from (RAND_MAX : Nat) (draws : Nat → Nat) (prob : ℚ)
    (str0 : Str) (k : Nat) (hb : ∀ j, k ≤ j → (binprob RAND_MAX draws prob j).1 = false) :
    randstr RAND_MAX draws prob str0 k = (str0, k + str0.length) := by
  have key : ∀ n, forLoop 0 (fun i (st : Str × Nat) =>
      let b := binprob RAND_MAX draws prob st.2
      if b.1 then
        let c := randchar RAND_MAX draws b.2 (charAt st.1 i)
        (st.1.set i c.1, c.2)
      else (st.1, b.2)) n (str0, k) = (str0, k + n) := by
    intro n
    induction n with
    | zero => simp [forLoop]
    | succ n ih =>
      rw [forLoop_zero_succ, ih]
      have h1 := hb (k + n) (by omega)
      have h2 : (binprob RAND_MAX draws prob (k + n)).2 = k + n + 1 := rfl
      simp only [h1, h2, Bool.false_eq_true, if_false, Nat.add_assoc]
  exact key str0.length

theorem drawsToCBT_binprob_false (j : Nat) (h : 6 ≤ j) :
    (binprob 32767 drawsToCBT (1 / 10) j).1 = false := by
  have hd : drawsToCBT j = 32767 := by
    simp only [drawsToCBT]
    rw [List.getD_eq_getElem?_getD, List.getElem?_eq_none (by simpa using h)]
    rfl
  simp only [binprob, hd]
  norm_num

theorem drawsToCBT_first_string :
    randstr 32767 drawsToCBT (1 / 10) ['A', 'A', 'A'] 0 = (['C', 'B', 'T'], 6) := by
  have c0 : Nat.ceil ((26 : ℚ) * (((0 : Nat) : ℚ) / ((32767 : Nat) : ℚ))) = 0 := by
    norm_num
  have c2 : Nat.ceil ((26 : ℚ) * (((2000 : Nat) : ℚ) / ((32767 : Nat) : ℚ))) = 2 := by
    rw [Nat.ceil_eq_iff (by norm_num)]
    norm_num
  have c19 : Nat.ceil ((26 : ℚ) * (((23000 : Nat) : ℚ) / ((32767 : Nat) : ℚ))) = 19 := by
    rw [Nat.ceil_eq_iff (by norm_num)]
    norm_num
  have l1 : cumprob 32767 drawsToCBT 1 = (3, 2) := by
    simp only [cumprob, cumprobLoop_start]
    have : drawsToCBT 1 = 2000 := rfl
    rw [this, c2]
    rfl
  have l3 : cumprob 32767 drawsToCBT 3 = (2, 4) := by
    simp only [cumprob, cumprobLoop_start]
    have : drawsToCBT 3 = 0 := rfl
    rw [this, c0]
    rfl
  have l5 : cumprob 32767 drawsToCBT 5 = (20, 6) := by
    simp only [cumprob, cumprobLoop_start]
    have : drawsToCBT 5 = 23000 := rfl
    rw [this, c19]
    rfl
  have b0 : binprob 32767 drawsToCBT (1 / 10) 0 = (true, 1) := by
    have : drawsToCBT 0 = 0 := rfl
    simp only [binprob, this]; norm_num
  have b2 : binprob 32767 drawsToCBT (1 / 10) 2 = (true, 3) := by
    have : drawsToCBT 2 = 0 := rfl
    simp only [binprob, this]; norm_num
  have b4 : binprob 32767 drawsToCBT (1 / 10) 4 = (true, 5) := by
    have : drawsToCBT 4 = 0 := rfl
    simp only [binprob, this]; norm_num
  simp only [randstr, List.length, forLoop, Nat.zero_le, if_true, b0, l1, randchar,
    List.set, b2, l3, b4, l5]

theorem randstrs_first_mutated (RAND_MAX : Nat) (draws : Nat → Nat) (prob : ℚ)
    (h0 : randstr RAND_MAX draws prob ['A', 'A', 'A'] 0 = (['C', 'B', 'T'], 6))
    (hk : ∀ k, 6 ≤ k →
      randstr RAND_MAX draws prob ['A', 'A', 'A'] k = (['A', 'A', 'A'], k + 3)) :
    randstrs RAND_MAX draws prob (List.replicate 10 ['A', 'A', 'A']) 0 =
      (['A', 'A', 'A'] :: ['C', 'B', 'T'] :: List.replicate 8 ['A', 'A', 'A'], 30) := by
  simp [randstrs, forLoop, List.replicate, h0, hk]

theorem drawsToCBT_generation :
    generation 32767 drawsToCBT (1 / 10) ['C', 'A', 'T'] false
      (initial (fun _ => 'x') ['C', 'A', 'T'] 10) =
      some ⟨List.replicate 10 ['C', 'B', 'T'], 1, 30,
        [Line.report 0 ['C', 'B', 'T']], false⟩ := by
  have hinit : initial (fun _ => 'x') ['C', 'A', 'T'] 10 =
      ⟨List.replicate 10 ['A', 'A', 'A'], 0, 0, [], false⟩ := by
    simp [initial, initstrs_eq]
  have hr := randstrs_first_mutated 32767 drawsToCBT (1 / 10) drawsToCBT_first_string
    (fun k hk => randstr_of_binprob_false_from 32767 drawsToCBT (1 / 10) ['A', 'A', 'A'] k
      (fun j hj => drawsToCBT_binprob_false j (by omega)))
  have hc : compstrs (randstrs 32767 drawsToCBT (1 / 10)
      (List.replicate 10 ['A', 'A', 'A']) 0).1 ['C', 'A', 'T'] = some 1 := by
    rw [hr]
    simp [compstrs, compstr, forLoop, charAt, List.replicate]
  rw [hinit, generation_of_compstrs_some 32767 drawsToCBT (1 / 10) ['C', 'A', 'T'] false
    ⟨List.replicate 10 ['A', 'A', 'A'], 0, 0, [], false⟩ 1 hc]
  simp only [cpywin_eq_replicate, hr]
  simp [compstr, forLoop, charAt]

/-- Claim C15, evaluated on a reachable state: with input CAT, probability 1 / 10, ten
strings and the draws drawsToCBT, generation 0 selects CBT (score 2) and copies it
into every string.  From that state on, whatever the draws, the loop never sets the
flag end and no string is ever CAT, because randchar never writes A. -/
theorem cat_unreachable_after_losing_filler :
    main (fun _ => 'x') 32767 drawsToCBT (fun _ => false) ['C', 'A', 'T'] (1 / 10) 10 1 =
      some ⟨List.replicate 10 ['C', 'B', 'T'], 1, 30,
        [Line.report 0 ['C', 'B', 'T']], false⟩ ∧
    ∀ (RAND_MAX : Nat) (draws : Nat → Nat) (fuel : Nat) (s : Loop),
      mainLoop RAND_MAX draws (1 / 10) ['C', 'A', 'T'] (fun _ => false) fuel
        ⟨List.replicate 10 ['C', 'B', 'T'], 1, 30,
          [Line.report 0 ['C', 'B', 'T']], false⟩ = some s →
      s.ended = false ∧ ∀ c, c ∈ s.strs → c ≠ ['C', 'A', 'T'] := by
  constructor
  · simp only [main, mainLoop, drawsToCBT_generation]
    simp
  · intro RAND_MAX draws fuel s hrun
    have hin : charAt ['C', 'A', 'T'] 1 = 'A' := by decide
    have h := mainLoop_without_filler RAND_MAX draws (1 / 10) ['C', 'A', 'T'] 1 hin fuel
      ⟨List.replicate 10 ['C', 'B', 'T'], 1, 30, [Line.report 0 ['C', 'B', 'T']], false⟩ s
      rfl
      (by
        intro c hc
        rw [List.eq_of_mem_replicate hc]; rfl)
      (by
        intro c hc
        rw [List.eq_of_mem_replicate hc]; decide)
      hrun
    refine ⟨h.1, ?_⟩
    intro c hc heq
    have := h.2 c hc
    rw [heq] at this
    exact this hin

/-! ## A population whose first string already is the input -/

/-- When the string at index 0 is the input, a generation without keypress selects index
0, prints nothing, leaves the flag end unset and keeps the input at index 0. -/
theorem generation_stuck_at_index_zero (RAND_MAX : Nat) (draws : Nat → Nat) (prob : ℚ)
    (input : Str) (s s1 : Loop) (hL : ∀ c, c ∈ s.strs → c.length = input.length)
    (h0 : s.strs.getD 0 [] = input)
    (hg : generation RAND_MAX draws prob input false s = some s1) :
    s1.ended = false ∧ s1.out = s.out ∧ s1.strs.getD 0 [] = input := by
  cases hc : compstrs (randstrs RAND_MAX draws prob s.strs s.k).1 input with
  | none => rw [generation_of_compstrs_none _ _ _ _ _ _ hc] at hg; cases hg
  | some win =>
    obtain ⟨_, _, hz, _⟩ := generation_facts RAND_MAX draws prob input false s s1 win hc hg
    obtain ⟨hwlt, _, _, hlow⟩ := compstrs_some_spec _ _ _ hc
    have hwin0 : win = 0 := by
      by_contra hne
      have hlt := hlow 0 (Nat.pos_of_ne_zero hne)
      rw [randstrs_getD_zero, h0, compstr_self] at hlt
      have hmem := getD_mem (randstrs RAND_MAX draws prob s.strs s.k).1 win [] hwlt
      have hwL :=
        (randstrs_lengths RAND_MAX draws prob s.strs s.k input.length hL).2 _ hmem
      have hle := compstrUpTo_le
        ((randstrs RAND_MAX draws prob s.strs s.k).1.getD win []) input
        ((randstrs RAND_MAX draws prob s.strs s.k).1.getD win []).length
      rw [← compstr_eq_upTo] at hle
      omega
    have h3 : s1.strs.getD 0 [] = input := by
      rw [hz, hwin0, randstrs_getD_zero, h0]
    rw [hwin0] at hc
    rw [generation_of_compstrs_some RAND_MAX draws prob input false s 0 hc] at hg
    cases hg
    exact ⟨by simp, by simp, h3⟩

theorem mainLoop_stuck_at_index_zero (RAND_MAX : Nat) (draws : Nat → Nat) (prob : ℚ)
    (input : Str) (fuel : Nat) :
    ∀ s s1 : Loop, s.ended = false → (∀ c, c ∈ s.strs → c.length = input.length) →
      s.strs.getD 0 [] = input →
      mainLoop RAND_MAX draws prob input (fun _ => false) fuel s = some s1 →
      s1.ended = false ∧ s1.out = s.out := by
  induction fuel with
  | zero =>
    intro s s1 he _ _ h
    simp only [mainLoop, Option.some.injEq] at h
    rw [← h]; exact ⟨he, rfl⟩
  | succ n ih =>
    intro s s1 _ hL h0 h
    simp only [mainLoop] at h
    cases hg : generation RAND_MAX draws prob input false s with
    | none => rw [hg] at h; cases h
    | some s2 =>
      rw [hg] at h
      simp only at h
      obtain ⟨he2, ho2, h02⟩ := generation_stuck_at_index_zero _ _ _ _ s s2 hL h0 hg
      simp only [he2, Bool.false_eq_true, if_false] at h
      have := ih s2 s1 he2 (generation_lengths _ _ _ _ _ s s2 _ hL hg) h02 h
      exact ⟨this.1, by rw [this.2, ho2]⟩

/-- Claim C1, evaluated at input A, probability 0, five strings, filler A, every draw 1
out of 32767: the string selected in generation 0 is at index 0, equals the input and
scores 1, yet the flag end stays false, and after ten generations the loop is still
running and has printed nothing.  More generally, when the input consists of fillers
only, the loop never sets the flag end and never prints, whatever the draws, the
probability, the population size and the number of generations. -/
theorem winner_at_index_zero_does_not_terminate :
    compstrs (randstrs 32767 (fun _ => 1) 0 (initial (fun _ => 'x') ['A'] 5).strs 0).1 ['A']
      = some 0 ∧
    (randstrs 32767 (fun _ => 1) 0 (initial (fun _ => 'x') ['A'] 5).strs 0).1.getD 0 []
      = ['A'] ∧
    compstr ['A'] ['A'] = 1 ∧
    (generation 32767 (fun _ => 1) 0 ['A'] false (initial (fun _ => 'x') ['A'] 5)).map
      Loop.ended = some false ∧
    (main (fun _ => 'x') 32767 (fun _ => 1) (fun _ => false) ['A'] 0 5 10).map
      (fun s => (s.ended, s.i, s.out)) = some (false, 10, []) ∧
    ∀ (junk : Nat → Char) (RAND_MAX : Nat) (draws : Nat → Nat) (prob : ℚ)
      (L n fuel : Nat) (s : Loop),
      main junk RAND_MAX draws (fun _ => false) (List.replicate L 'A') prob (n + 1) fuel
        = some s →
      s.ended = false ∧ s.out = [] := by
  have hb : ∀ j, (binprob 32767 (fun _ => 1) 0 j).1 = false :=
    binprob_zero_of_pos 32767 (fun _ => 1) (by decide) (fun _ => Nat.one_pos)
  have hgen : ∀ i k, generation 32767 (fun _ => 1) 0 ['A'] false
      ⟨List.replicate 5 ['A'], i, k, [], false⟩ =
      some ⟨List.replicate 5 ['A'], i + 1,
        (randstrs 32767 (fun _ => 1) 0 (List.replicate 5 ['A']) k).2, [], false⟩ := by
    intro i k
    have hr := randstrs_of_binprob_false 32767 (fun _ => 1) 0 hb (List.replicate 5 ['A']) k
    have hc : compstrs (randstrs 32767 (fun _ => 1) 0 (List.replicate 5 ['A']) k).1 ['A']
        = some 0 := by
      rw [hr]; simp [compstrs, compstr, forLoop, charAt]
    rw [generation_of_compstrs_some 32767 (fun _ => 1) 0 ['A'] false
      ⟨List.replicate 5 ['A'], i, k, [], false⟩ 0 hc]
    simp only [ne_eq, not_true_eq_false, if_false, Bool.false_eq_true, cpywin_eq_replicate, hr]
    simp
  have hinit : initial (fun _ => 'x') ['A'] 5 = ⟨List.replicate 5 ['A'], 0, 0, [], false⟩ := by
    simp [initial, initstrs_eq]
  have hr0 := randstrs_of_binprob_false 32767 (fun _ => 1) 0 hb (List.replicate 5 ['A']) 0
  refine ⟨?_, ?_, by decide, ?_, ?_, ?_⟩
  · rw [hinit]; simp only; rw [hr0]; simp [compstrs, compstr, forLoop, charAt]
  · rw [hinit]; simp only; rw [hr0]; simp
  · rw [hinit, hgen]; rfl
  · simp only [main, hinit, mainLoop, hgen, Bool.false_eq_true, if_false, Option.map_some']
  · intro junk RAND_MAX draws prob L n fuel s hrun
    have hstrs : (initial junk (List.replicate L 'A') (n + 1)).strs =
        List.replicate (n + 1) (List.replicate L 'A') := by
      simp [initial, initstrs_eq]
    have h := mainLoop_stuck_at_index_zero RAND_MAX draws prob (List.replicate L 'A') fuel
      (initial junk (List.replicate L 'A') (n + 1)) s rfl
      (initial_lengths junk (List.replicate L 'A') (n + 1))
      (by rw [hstrs]; simp [List.replicate_succ])
      hrun
    exact ⟨h.1, by rw [h.2]; rfl⟩

end Weasel
